import Mathlib

/-!
# memalloc.c : a shallow embedding

The allocator of `src/memalloc.c` (`malloc`, `calloc`, `realloc`, `free` on top of `sbrk`)
is embedded as pure functions over an explicit allocator state.

Modelling conventions.

* Addresses and `size_t` values are natural numbers; every `size_t` and pointer computation
  of the source is reduced modulo `2 ^ 64` where the source computes it.
  `NULL` is the address `0`, `(void*) -1` is `2 ^ 64 - 1`.
* The header fields `size`, `is_free`, `next` of the header stored at an address are kept in
  a map from header addresses to records; payload bytes are kept in a separate byte map.
  The two views agree with flat memory as long as headers and payloads do not overlap.
  Memory between the break and the end of the mapped page is treated as writable.
* The two `while` loops of the source run on a fuel counter; `none` means that the fuel ran
  out (the C loop would not have terminated within that many iterations) or that a library
  call faulted.
* The mutex calls have no effect on the sequential state and are left out of the state
  functions; the section on lock events records them, with the header accesses, as a trace.
-/

namespace MemAlloc

/-! ## Layout of `header_t` -/

/-- Round `off` up to the next multiple of `al`. -/
def alignUp (off al : Nat) : Nat := (off + al - 1) / al * al

/-- Size and alignment of a C struct whose members have the given (size, alignment) pairs. -/
def structLayout (fields : List (Nat × Nat)) : Nat × Nat :=
  let stop := fields.foldl (fun off f => alignUp off f.2 + f.1) 0
  let al := fields.foldl (fun a f => max a f.2) 1
  (alignUp stop al, al)

/-- Size and alignment of a C union whose members have the given (size, alignment) pairs. -/
def unionLayout (members : List (Nat × Nat)) : Nat × Nat :=
  let sz := members.foldl (fun m f => max m f.1) 0
  let al := members.foldl (fun a f => max a f.2) 1
  (alignUp sz al, al)

/-- The (size, alignment) of `union header` on an LP64 target:
`struct { size_t size; unsigned is_free; union header *next; } s; char stub[16];`. -/
def header_layout : Nat × Nat :=
  unionLayout [structLayout [(8, 8), (4, 4), (8, 8)], (16, 1)]

/-- The value of `sizeof(header_t)`. -/
def sizeof_header_t : Nat := header_layout.1

/-! ## Machine arithmetic -/

/-- Addition of two `size_t` / pointer values. -/
def uadd (a b : Nat) : Nat := (a + b) % 2 ^ 64

/-- Subtraction of two `size_t` / pointer values. -/
def usub (a b : Nat) : Nat := (a + 2 ^ 64 - b % 2 ^ 64) % 2 ^ 64

/-- Conversion of a `size_t` value to the `intptr_t` argument of `sbrk`. -/
def toIntptr (x : Nat) : Int := if x < 2 ^ 63 then (x : Int) else (x : Int) - 2 ^ 64

/-! ## State -/

/-- The three fields of `header_t.s`. -/
structure Header where
  size : Nat
  is_free : Nat
  next : Nat

/-- Allocator state: the globals `head` and `tail`, the program break together with the
interval `[base, limit]` the operating system keeps it in, the header fields stored at each
address, and the payload bytes. -/
structure State where
  head : Nat
  tail : Nat
  brk : Nat
  base : Nat
  limit : Nat
  hdr : Nat → Header
  mem : Nat → Nat

/-- The state of a fresh process: `head = tail = NULL`, break at `base`. -/
def initState (base limit : Nat) : State :=
  { head := 0, tail := 0, brk := base, base := base, limit := limit,
    hdr := fun _ => ⟨0, 0, 0⟩, mem := fun _ => 0 }

/-- The assignment `h->s.size = v`. -/
def setSize (hdr : Nat → Header) (h v : Nat) : Nat → Header :=
  fun a => if a = h then { hdr a with size := v } else hdr a

/-- The assignment `h->s.is_free = v`. -/
def setFree (hdr : Nat → Header) (h v : Nat) : Nat → Header :=
  fun a => if a = h then { hdr a with is_free := v } else hdr a

/-- The assignment `h->s.next = v`. -/
def setNext (hdr : Nat → Header) (h v : Nat) : Nat → Header :=
  fun a => if a = h then { hdr a with next := v } else hdr a

/-! ## Library primitives -/

/-- Modelled from the spec: `sbrk`, the heap growth primitive of section 4.1, is a libc call
and not part of the sources. `sbrk(0)` returns the current break. Any other increment moves
the break by that signed amount and returns the previous break when the new break stays in
`[base, limit]`; otherwise the call is refused: it returns `(void*) -1` and leaves the break
where it was. -/
def sbrk (s : State) (increment : Int) : Nat × State :=
  if increment = 0 then (s.brk, s)
  else if (s.base : Int) ≤ (s.brk : Int) + increment ∧ (s.brk : Int) + increment ≤ (s.limit : Int) then
    (s.brk, { s with brk := ((s.brk : Int) + increment).toNat })
  else (2 ^ 64 - 1, s)

/-- Modelled from the spec: `memset(dst, c, n)` (libc) stores `c` in the `n` bytes from `dst`
on. A range that runs past the end of the 64-bit address space cannot be written: the call
faults and nothing is returned. -/
def memset (s : State) (dst c n : Nat) : Option State :=
  if dst + n ≤ 2 ^ 64 then
    some { s with mem := fun a => if dst ≤ a ∧ a < dst + n then c else s.mem a }
  else none

/-- Modelled from the spec: `memcpy(dst, src, n)` (libc) copies the `n` bytes from `src` on
to `dst` on. A range that runs past the end of the 64-bit address space faults. -/
def memcpy (s : State) (dst src n : Nat) : Option State :=
  if dst + n ≤ 2 ^ 64 ∧ src + n ≤ 2 ^ 64 then
    some { s with mem := fun a => if dst ≤ a ∧ a < dst + n then s.mem (src + (a - dst)) else s.mem a }
  else none

/-! ## The allocator -/

/-- The loop of `get_free_block`, started at `curr`. `some 0` is the `NULL` result. -/
def get_free_block_loop (s : State) (size : Nat) : Nat → Nat → Option Nat
  | 0, _ => none
  | fuel + 1, curr =>
    if curr = 0 then some 0
    else if (s.hdr curr).is_free ≠ 0 ∧ (s.hdr curr).size ≥ size then some curr
    else get_free_block_loop s size fuel (s.hdr curr).next

/-- The function `get_free_block(size)`. -/
def get_free_block (fuel : Nat) (s : State) (size : Nat) : Option Nat :=
  get_free_block_loop s size fuel s.head

/-- The predecessor scan of `free`: `while (tmp) { if (tmp->s.next == tail) { tmp->s.next = NULL;
tail = tmp; } tmp = tmp->s.next; }`. -/
def free_loop : Nat → State → Nat → Option State
  | 0, _, _ => none
  | fuel + 1, s, tmp =>
    if tmp = 0 then some s
    else
      let s1 : State :=
        if (s.hdr tmp).next = s.tail then { s with hdr := setNext s.hdr tmp 0, tail := tmp } else s
      free_loop fuel s1 (s1.hdr tmp).next

/-- The function `free(block)`. -/
def free (fuel : Nat) (s : State) (block : Nat) : Option State :=
  if block = 0 then some s
  else
    let header := usub block sizeof_header_t
    let programbreak := (sbrk s 0).1
    if uadd block (s.hdr header).size = programbreak then
      let unlinked : Option State :=
        if s.head = s.tail then some { s with head := 0, tail := 0 }
        else free_loop fuel s s.head
      match unlinked with
      | none => none
      | some s1 =>
        some (sbrk s1 (toIntptr (usub (usub 0 (s1.hdr header).size) sizeof_header_t))).2
    else some { s with hdr := setFree s.hdr header 1 }

/-- The function `malloc(size)`; the first component of the result is the returned pointer. -/
def malloc (fuel : Nat) (s : State) (size : Nat) : Option (Nat × State) :=
  if size = 0 then some (0, s)
  else
    match get_free_block fuel s size with
    | none => none
    | some header =>
      if header ≠ 0 then
        some (uadd header sizeof_header_t, { s with hdr := setFree s.hdr header 0 })
      else
        let total_size := uadd sizeof_header_t size
        let r := sbrk s (toIntptr total_size)
        let block := r.1
        let s1 := r.2
        if block = 2 ^ 64 - 1 then some (0, s1)
        else
          let header := block
          let hdr1 := setNext (setFree (setSize s1.hdr header size) header 0) header 0
          let head1 := if s1.head = 0 then header else s1.head
          let hdr2 := if s1.tail ≠ 0 then setNext hdr1 s1.tail header else hdr1
          some (uadd header sizeof_header_t, { s1 with head := head1, tail := header, hdr := hdr2 })

/-- The function `calloc(num, nsize)`. -/
def calloc (fuel : Nat) (s : State) (num nsize : Nat) : Option (Nat × State) :=
  if num = 0 ∨ nsize = 0 then some (0, s)
  else
    let size := (num * nsize) % 2 ^ 64
    if nsize ≠ size / num then some (0, s)
    else
      match malloc fuel s size with
      | none => none
      | some (block, s1) =>
        if block = 0 then some (0, s1)
        else
          match memset s1 block 0 size with
          | none => none
          | some s2 => some (block, s2)

/-- The function `realloc(block, size)`. -/
def realloc (fuel : Nat) (s : State) (block size : Nat) : Option (Nat × State) :=
  if block = 0 ∨ size = 0 then malloc fuel s size
  else
    let header := usub block sizeof_header_t
    if (s.hdr header).size ≥ size then some (block, s)
    else
      match malloc fuel s size with
      | none => none
      | some (ret, s1) =>
        if ret ≠ 0 then
          match memcpy s1 ret block (s1.hdr header).size with
          | none => none
          | some s2 =>
            match free fuel s2 block with
            | none => none
            | some s3 => some (ret, s3)
        else some (ret, s1)

/-! ## Chains, well-formed states, reachable states -/

/-- `ChainFrom hdr a l`: following `next` from `a` visits exactly the headers of `l`, in
this order, none of them `NULL`, and then reaches `NULL`. -/
def ChainFrom (hdr : Nat → Header) : Nat → List Nat → Prop
  | a, [] => a = 0
  | a, x :: xs => a = x ∧ x ≠ 0 ∧ ChainFrom hdr (hdr x).next xs

/-- The test of `get_free_block` on the header at `h`: `h->s.is_free && h->s.size >= size`. -/
def fits (s : State) (size h : Nat) : Prop :=
  (s.hdr h).is_free ≠ 0 ∧ (s.hdr h).size ≥ size

/-- `Tiled hdr e l`: every block of `l` (header and payload) ends where the header of the
next one starts, and the last one ends at `e`. -/
def Tiled (hdr : Nat → Header) (e : Nat) : List Nat → Prop
  | [] => True
  | [x] => x + sizeof_header_t + (hdr x).size = e
  | x :: y :: ys => x + sizeof_header_t + (hdr x).size = y ∧ Tiled hdr e (y :: ys)

/-- Well-formed allocator state with chain `l`: `l` is the chain from `head`, `tail` is its
last header, the blocks tile the heap up to the break, each block is small enough for its
total size to be a positive `intptr_t`, and the break lies in `[base, limit]` below the top of
the address space. -/
structure WF (s : State) (l : List Nat) : Prop where
  chain : ChainFrom s.hdr s.head l
  tail_last : s.tail = l.getLastD 0
  tiled : Tiled s.hdr s.brk l
  lower : ∀ h ∈ l, s.base ≤ h
  small : ∀ h ∈ l, sizeof_header_t + (s.hdr h).size < 2 ^ 63
  base_pos : 0 < s.base
  base_le : s.base ≤ s.brk
  brk_le : s.brk ≤ s.limit
  limit_lt : s.limit + sizeof_header_t < 2 ^ 64

/-- The payload pointer `p` belongs to a header of the chain `l` that is in use. -/
def Live (s : State) (l : List Nat) (p : Nat) : Prop :=
  ∃ h, h ∈ l ∧ p = h + sizeof_header_t ∧ p < 2 ^ 64 ∧ (s.hdr h).is_free = 0

/-- The payload pointer `p` is live in `s`: its header is reached from `head` and in use. -/
def LivePtr (s : State) (p : Nat) : Prop :=
  ∃ l, ChainFrom s.hdr s.head l ∧ Live s l p

/-- States reached from a fresh process by calls of the four public operations with
arbitrary `size_t` arguments, `realloc` and `free` being called on `NULL` or on live pointers
only, and by the client storing bytes in payload memory. -/
inductive Reachable : State → Prop
  | init (base limit : Nat) : 0 < base → base ≤ limit → limit + sizeof_header_t < 2 ^ 64 →
      Reachable (initState base limit)
  | store {s : State} (m : Nat → Nat) : Reachable s → Reachable { s with mem := m }
  | malloc {s s1 : State} (fuel size p : Nat) : Reachable s → size < 2 ^ 64 →
      malloc fuel s size = some (p, s1) → Reachable s1
  | calloc {s s1 : State} (fuel num nsize p : Nat) : Reachable s → num < 2 ^ 64 →
      nsize < 2 ^ 64 → calloc fuel s num nsize = some (p, s1) → Reachable s1
  | realloc {s s1 : State} (fuel block size p : Nat) : Reachable s →
      (block = 0 ∨ LivePtr s block) → size < 2 ^ 64 →
      realloc fuel s block size = some (p, s1) → Reachable s1
  | free {s s1 : State} (fuel block : Nat) : Reachable s → (block = 0 ∨ LivePtr s block) →
      free fuel s block = some s1 → Reachable s1

/-- States reached like those of `Reachable`, but only through requests whose total size
`sizeof(header_t) + size` is below `2^63`, so that the sum neither wraps nor reaches `sbrk` as
a negative increment (`calloc` may also be called with arguments its guards reject). -/
inductive ReachableNoWrap : State → Prop
  | init (base limit : Nat) : 0 < base → base ≤ limit → limit + sizeof_header_t < 2 ^ 64 →
      ReachableNoWrap (initState base limit)
  | store {s : State} (m : Nat → Nat) : ReachableNoWrap s → ReachableNoWrap { s with mem := m }
  | malloc {s s1 : State} (fuel size p : Nat) : ReachableNoWrap s →
      sizeof_header_t + size < 2 ^ 63 → malloc fuel s size = some (p, s1) → ReachableNoWrap s1
  | calloc {s s1 : State} (fuel num nsize p : Nat) : ReachableNoWrap s →
      num < 2 ^ 64 → nsize < 2 ^ 64 →
      (num = 0 ∨ nsize = 0 ∨ 2 ^ 64 ≤ num * nsize ∨ sizeof_header_t + num * nsize < 2 ^ 63) →
      calloc fuel s num nsize = some (p, s1) → ReachableNoWrap s1
  | realloc {s s1 : State} (fuel block size p : Nat) : ReachableNoWrap s →
      (block = 0 ∨ LivePtr s block) → sizeof_header_t + size < 2 ^ 63 →
      realloc fuel s block size = some (p, s1) → ReachableNoWrap s1
  | free {s s1 : State} (fuel block : Nat) : ReachableNoWrap s →
      (block = 0 ∨ LivePtr s block) → free fuel s block = some s1 → ReachableNoWrap s1

instance ChainFrom.decide (hdr : Nat → Header) : ∀ (a : Nat) (l : List Nat), Decidable (ChainFrom hdr a l)
  | a, [] => inferInstanceAs (Decidable (a = 0))
  | a, x :: xs =>
    have := ChainFrom.decide hdr (hdr x).next xs
    inferInstanceAs (Decidable (a = x ∧ x ≠ 0 ∧ ChainFrom hdr (hdr x).next xs))

instance fits.decide (s : State) (size h : Nat) : Decidable (fits s size h) :=
  inferInstanceAs (Decidable ((s.hdr h).is_free ≠ 0 ∧ (s.hdr h).size ≥ size))

instance Tiled.decide (hdr : Nat → Header) (e : Nat) : ∀ l : List Nat, Decidable (Tiled hdr e l)
  | [] => inferInstanceAs (Decidable True)
  | [x] => inferInstanceAs (Decidable (x + sizeof_header_t + (hdr x).size = e))
  | x :: y :: ys =>
    have := Tiled.decide hdr e (y :: ys)
    inferInstanceAs (Decidable (x + sizeof_header_t + (hdr x).size = y ∧ Tiled hdr e (y :: ys)))

/-! ## Lock events -/

/-- The events of a call that matter for the locking discipline: `pthread_mutex_lock` and
`pthread_mutex_unlock` on `global_malloc_lock`, and the reads and writes of a field of the
header at a given address. -/
inductive Event where
  | acquire : Event
  | release : Event
  | load : Nat → Event
  | store : Nat → Event
deriving DecidableEq

/-- No event of the trace is an acquire or a release. -/
def LockFree (tr : List Event) : Prop :=
  ∀ e ∈ tr, e ≠ Event.acquire ∧ e ≠ Event.release

/-- The trace is empty, or it is one acquire, then events that are neither an acquire nor a
release, then one release: a single critical section that contains every header access. -/
def OneSection (tr : List Event) : Prop :=
  tr = [] ∨
    (tr.head? = some Event.acquire ∧ tr.getLast? = some Event.release ∧
      LockFree tr.tail.dropLast)

instance LockFree.decide (tr : List Event) : Decidable (LockFree tr) :=
  inferInstanceAs (Decidable (∀ e ∈ tr, e ≠ Event.acquire ∧ e ≠ Event.release))

instance OneSection.decide (tr : List Event) : Decidable (OneSection tr) :=
  inferInstanceAs (Decidable (tr = [] ∨
    (tr.head? = some Event.acquire ∧ tr.getLast? = some Event.release ∧
      LockFree tr.tail.dropLast)))

/-! ## Example states -/

/-- The state component of a result, `d` when there is none. -/
def stateOf (r : Option (Nat × State)) (d : State) : State :=
  match r with
  | some (_, s) => s
  | none => d

/-- A fresh process with the break at 4096 and room up to 8192. -/
def fresh : State := initState 4096 8192

/-- A fresh process whose break cannot move at all. -/
def fullHeap : State := initState 4096 4096

/-- The state after `A = malloc(8)` in `fresh`: one header at 4096, `A = 4120`, break 4128. -/
def oneBlock : State := stateOf (malloc 1 fresh 8) fresh

/-- The state after `A = malloc(8)` and `B = malloc(2^64 - 24)` in `fresh`. The second call
computes `total_size = 0`, so the break stays at 4128, where the header of `B` is written;
`A = 4120`, `B = 4152`. -/
def wrapped : State := stateOf (malloc 2 oneBlock (2 ^ 64 - 24)) oneBlock

/-- The state after three calls `malloc(16)` in `fresh`: headers at 4096, 4136 and 4176,
payloads at 4120, 4160 and 4200, break 4216. -/
def threeUsed : State :=
  stateOf (malloc 3 (stateOf (malloc 2 (stateOf (malloc 1 fresh 16) fresh) 16) fresh) 16) fresh

/-- The state `threeUsed` after `free(4120)` and after the client filled the payload memory
with the byte 255: the first of the three blocks is free, the other two are in use. -/
def threeBlocks : State :=
  { (free 4 threeUsed 4120).getD threeUsed with mem := fun _ => 255 }

/-- The state after `malloc(8)` in a fresh process whose break may rise to 4128 and no
further: one block in use at 4120, and no room for another one. -/
def tight : State := stateOf (malloc 1 (initState 4096 4128) 8) (initState 4096 4128)

/-- The state after `C = malloc(8)` in `wrapped`: `sbrk(32)` returns 4128 again, so the header
of `C` is written over the header of `B`, `C = B = 4152`, and `tail->next = header` makes that
header its own successor. -/
def looped : State := stateOf (malloc 3 wrapped 8) wrapped

/-- The state after `free(4120)` in `wrapped`. -/
def shrunk : State := (free 3 wrapped 4120).getD wrapped

/-- The state after three calls `malloc(8)` in `fresh`: headers at 4096, 4128 and 4160,
payloads `X = 4120`, `Y = 4152` and `Z = 4184`, break 4192. -/
def threeSmall : State :=
  stateOf (malloc 3 (stateOf (malloc 2 (stateOf (malloc 1 fresh 8) fresh) 8) fresh) 8) fresh

/-- The state `threeSmall` after `free(X)` and `free(Y)`. -/
def twoFreed : State :=
  (free 4 ((free 4 threeSmall 4120).getD threeSmall) 4152).getD threeSmall

/-- The state after `W = malloc(2^64 - 88)` in `twoFreed`: `total_size` is `2^64 - 64`, which
`sbrk` receives as `-64`, so the break drops from 4192 to 4128, the address of the header of
`Y`, and the header of `W` is written at 4192. -/
def lowered : State := stateOf (malloc 5 twoFreed (2 ^ 64 - 88)) twoFreed

/-- The state after two calls `malloc(8)` in `fresh`: headers at 4096 and 4128, payloads
4120 and 4152, break 4160. -/
def twoSmall : State := stateOf (malloc 2 (stateOf (malloc 1 fresh 8) fresh) 8) fresh

/-- The state after `malloc(2^64 - 56)` in `twoSmall` and then `free(4152)`: `total_size` is
`2^64 - 32`, which `sbrk` receives as `-32`, so the break drops from 4160 to 4128, the header
of the second block; that block, whose payload 4152 now lies above the break, is then marked
free. -/
def dipped : State :=
  (free 4 (stateOf (malloc 3 twoSmall (2 ^ 64 - 56)) twoSmall) 4152).getD twoSmall

/-! ## Basic facts -/

theorem sizeof_header_t_eq : sizeof_header_t = 24 := by decide

theorem get_free_block_loop_spec (s : State) (size : Nat) :
    ∀ (l : List Nat) (a fuel : Nat), ChainFrom s.hdr a l → l.length < fuel →
      ∃ r, get_free_block_loop s size fuel a = some r ∧
        (r ≠ 0 → ∃ pre post, l = pre ++ r :: post ∧ fits s size r ∧ ∀ x ∈ pre, ¬ fits s size x) ∧
        (r = 0 ↔ ∀ x ∈ l, ¬ fits s size x) := by
  intro l
  induction l with
  | nil =>
    intro a fuel hc hf
    cases fuel with
    | zero => simp at hf
    | succ f =>
      have ha : a = 0 := hc
      subst ha
      exact ⟨0, by simp [get_free_block_loop], by simp, by simp⟩
  | cons x xs ih =>
    intro a fuel hc hf
    obtain ⟨hax, hx0, hrest⟩ := hc
    subst hax
    cases fuel with
    | zero => simp at hf
    | succ f =>
      have hf1 : xs.length < f := by simpa using hf
      by_cases hfit : fits s size a
      · refine ⟨a, ?_, ?_, ?_⟩
        · have h1 := hfit.1
          have h2 := hfit.2
          simp [get_free_block_loop, hx0, h1, h2]
        · intro _
          exact ⟨[], xs, rfl, hfit, by simp⟩
        · constructor
          · intro h; exact absurd h hx0
          · intro h; exact absurd hfit (h a (by simp))
      · obtain ⟨r, hr, h1, h2⟩ := ih (s.hdr a).next f hrest hf1
        refine ⟨r, ?_, ?_, ?_⟩
        · have hn : ¬ ((s.hdr a).is_free ≠ 0 ∧ (s.hdr a).size ≥ size) := hfit
          rw [get_free_block_loop, if_neg hx0, if_neg hn]
          exact hr
        · intro hr0
          obtain ⟨pre, post, hl, hfr, hpre⟩ := h1 hr0
          refine ⟨a :: pre, post, by simp [hl], hfr, ?_⟩
          intro y hy
          rcases List.mem_cons.mp hy with rfl | hy
          · exact hfit
          · exact hpre y hy
        · constructor
          · intro h y hy
            rcases List.mem_cons.mp hy with rfl | hy
            · exact hfit
            · exact (h2.mp h) y hy
          · intro h
            exact h2.mpr (fun y hy => h y (List.mem_cons_of_mem _ hy))

theorem sbrk_fst (s : State) (i : Int) :
    (sbrk s i).1 = s.brk ∨ ((sbrk s i).1 = 2 ^ 64 - 1 ∧ (sbrk s i).2 = s) := by
  unfold sbrk
  split
  · exact Or.inl rfl
  · split
    · exact Or.inl rfl
    · exact Or.inr ⟨rfl, rfl⟩

theorem sbrk_frame (s : State) (i : Int) :
    (sbrk s i).2.head = s.head ∧ (sbrk s i).2.tail = s.tail ∧ (sbrk s i).2.base = s.base ∧
      (sbrk s i).2.limit = s.limit ∧ (sbrk s i).2.hdr = s.hdr ∧ (sbrk s i).2.mem = s.mem := by
  unfold sbrk
  split
  · simp
  · split <;> simp

theorem sbrk_grow (s : State) (n : Nat) (hn : 0 < n) (h63 : n < 2 ^ 63)
    (hb : s.base ≤ s.brk) (hl : s.brk + n ≤ s.limit) :
    (sbrk s (toIntptr n)).1 = s.brk ∧ (sbrk s (toIntptr n)).2.brk = s.brk + n := by
  have hi : toIntptr n = (n : Int) := by unfold toIntptr; rw [if_pos h63]
  rw [hi]
  unfold sbrk
  have h0 : ¬ ((n : Int) = 0) := by omega
  have h1 : (s.base : Int) ≤ (s.brk : Int) + (n : Int) ∧ (s.brk : Int) + (n : Int) ≤ (s.limit : Int) := by
    constructor <;> omega
  rw [if_neg h0, if_pos h1]
  refine ⟨rfl, ?_⟩
  show ((s.brk : Int) + (n : Int)).toNat = s.brk + n
  omega

theorem sbrk_refuse (s : State) (n : Nat) (hn : 0 < n) (h63 : n < 2 ^ 63)
    (hl : s.limit < s.brk + n) : sbrk s (toIntptr n) = (2 ^ 64 - 1, s) := by
  have hi : toIntptr n = (n : Int) := by unfold toIntptr; rw [if_pos h63]
  rw [hi]
  unfold sbrk
  have h0 : ¬ ((n : Int) = 0) := by omega
  have h1 : ¬ ((s.base : Int) ≤ (s.brk : Int) + (n : Int) ∧ (s.brk : Int) + (n : Int) ≤ (s.limit : Int)) := by
    omega
  rw [if_neg h0, if_neg h1]

theorem ChainFrom.ne_zero (hdr : Nat → Header) :
    ∀ (l : List Nat) (a : Nat), ChainFrom hdr a l → ∀ h ∈ l, h ≠ 0 := by
  intro l
  induction l with
  | nil => intro _ _ h hh; simp at hh
  | cons x xs ih =>
    intro a hc h hh
    obtain ⟨_, hx0, hrest⟩ := hc
    rcases List.mem_cons.mp hh with rfl | hh
    · exact hx0
    · exact ih _ hrest h hh

theorem Tiled.block_le (hdr : Nat → Header) (e : Nat) :
    ∀ l : List Nat, Tiled hdr e l → ∀ h ∈ l, h + sizeof_header_t + (hdr h).size ≤ e := by
  intro l
  induction l with
  | nil => intro _ h hh; simp at hh
  | cons x xs ih =>
    intro ht h hh
    cases xs with
    | nil =>
      have hx : h = x := by simpa using hh
      subst hx
      exact le_of_eq ht
    | cons y ys =>
      obtain ⟨hxy, hrest⟩ := ht
      have hy := ih hrest y (by simp)
      rcases List.mem_cons.mp hh with rfl | hh
      · omega
      · exact ih hrest h hh

/-- The three ways a call `malloc(size)` with `size != 0` can go on a state whose chain is
`l`: reuse of the first free header that fits, refusal by `sbrk`, or a fresh header at the
address `sbrk` returned. -/
theorem malloc_cases (s : State) (l : List Nat) (fuel size : Nat)
    (hc : ChainFrom s.hdr s.head l) (hf : l.length < fuel) (hs : size ≠ 0) :
    (∃ h pre post, l = pre ++ h :: post ∧ fits s size h ∧ (∀ x ∈ pre, ¬ fits s size x) ∧
        malloc fuel s size =
          some (uadd h sizeof_header_t, { s with hdr := setFree s.hdr h 0 })) ∨
    ((∀ h ∈ l, ¬ fits s size h) ∧
        (sbrk s (toIntptr (uadd sizeof_header_t size))).1 = 2 ^ 64 - 1 ∧
        malloc fuel s size = some (0, (sbrk s (toIntptr (uadd sizeof_header_t size))).2)) ∨
    ((∀ h ∈ l, ¬ fits s size h) ∧
        (sbrk s (toIntptr (uadd sizeof_header_t size))).1 ≠ 2 ^ 64 - 1 ∧
        ∃ s1, malloc fuel s size =
            some (uadd (sbrk s (toIntptr (uadd sizeof_header_t size))).1 sizeof_header_t, s1) ∧
          s1.brk = (sbrk s (toIntptr (uadd sizeof_header_t size))).2.brk ∧
          s1.base = s.base ∧ s1.limit = s.limit ∧ s1.mem = s.mem ∧
          s1.tail = (sbrk s (toIntptr (uadd sizeof_header_t size))).1) := by
  obtain ⟨r, hr, h1, h2⟩ := get_free_block_loop_spec s size l s.head fuel hc hf
  have hg : get_free_block fuel s size = some r := hr
  by_cases hr0 : r = 0
  · have hnone := h2.mp hr0
    subst hr0
    by_cases hb : (sbrk s (toIntptr (uadd sizeof_header_t size))).1 = 2 ^ 64 - 1
    · refine Or.inr (Or.inl ⟨hnone, hb, ?_⟩)
      simp [malloc, hs, hg, hb]
    · refine Or.inr (Or.inr ⟨hnone, hb, ?_⟩)
      obtain ⟨_, _, h3, h4, _, h6⟩ := sbrk_frame s (toIntptr (uadd sizeof_header_t size))
      simp only [malloc, hs, hg, hb, if_false, ne_eq, not_true_eq_false]
      exact ⟨_, rfl, rfl, h3, h4, h6, rfl⟩
  · obtain ⟨pre, post, hl, hfit, hpre⟩ := h1 hr0
    refine Or.inl ⟨r, pre, post, hl, hfit, hpre, ?_⟩
    simp [malloc, hs, hg, hr0]

/-- The concrete contents of `oneBlock`. -/
theorem oneBlock_shape :
    (oneBlock.head, oneBlock.tail, oneBlock.brk) = (4096, 4096, 4128) ∧
      ((oneBlock.hdr 4096).size, (oneBlock.hdr 4096).is_free, (oneBlock.hdr 4096).next) =
        (8, 0, 0) := by
  decide

/-- The concrete contents of `wrapped`: the chain is 4096, 4128 and the break is still 4128. -/
theorem wrapped_shape :
    (wrapped.head, wrapped.tail, wrapped.brk) = (4096, 4128, 4128) ∧
      ((wrapped.hdr 4096).size, (wrapped.hdr 4096).is_free, (wrapped.hdr 4096).next) =
        (8, 0, 4128) ∧
      ((wrapped.hdr 4128).size, (wrapped.hdr 4128).is_free, (wrapped.hdr 4128).next) =
        (2 ^ 64 - 24, 0, 0) := by
  decide

/-- The concrete contents of `threeBlocks`. -/
theorem threeBlocks_shape :
    (threeBlocks.head, threeBlocks.tail, threeBlocks.brk) = (4096, 4176, 4216) ∧
      ((threeBlocks.hdr 4096).size, (threeBlocks.hdr 4096).is_free, (threeBlocks.hdr 4096).next) =
        (16, 1, 4136) ∧
      ((threeBlocks.hdr 4136).size, (threeBlocks.hdr 4136).is_free, (threeBlocks.hdr 4136).next) =
        (16, 0, 4176) ∧
      ((threeBlocks.hdr 4176).size, (threeBlocks.hdr 4176).is_free, (threeBlocks.hdr 4176).next) =
        (16, 0, 0) := by
  decide

theorem wf_fullHeap : WF fullHeap [] :=
  ⟨by decide, by decide, by decide, by decide, by decide, by decide, by decide, by decide,
    by decide⟩

theorem wf_oneBlock : WF oneBlock [4096] :=
  ⟨by decide, by decide, by decide, by decide, by decide, by decide, by decide, by decide,
    by decide⟩

theorem wf_threeBlocks : WF threeBlocks [4096, 4136, 4176] :=
  ⟨by decide, by decide, by decide, by decide, by decide, by decide, by decide, by decide,
    by decide⟩

/-! ## C1 -/

/-- C1, as stated, fails. In a well-formed state whose break the operating system will not
move, `malloc(8)` returns `NULL`. In the well-formed state `oneBlock`, `malloc(2^64 - 24)`
computes `total_size = 0`, `sbrk(0)` succeeds, and the returned pointer 4152 lies above the
unchanged break 4128. -/
theorem malloc_nonnull_addressable_fails :
    (WF fullHeap [] ∧
      ¬ ∃ p s1, malloc 1 fullHeap 8 = some (p, s1) ∧ p ≠ 0 ∧ p + 8 ≤ s1.brk) ∧
    (WF oneBlock [4096] ∧
      ¬ ∃ p s1, malloc 2 oneBlock (2 ^ 64 - 24) = some (p, s1) ∧ p ≠ 0 ∧
        p + (2 ^ 64 - 24) ≤ s1.brk) := by
  refine ⟨⟨wf_fullHeap, ?_⟩, ⟨wf_oneBlock, ?_⟩⟩
  · rintro ⟨p, s1, h, hp, _⟩
    have e : (malloc 1 fullHeap 8).map (fun r => r.1) = some 0 := by decide
    rw [h] at e
    simp at e
    exact hp e
  · rintro ⟨p, s1, h, _, hle⟩
    have e : (malloc 2 oneBlock (2 ^ 64 - 24)).map (fun r => (r.1, r.2.brk)) = some (4152, 4128) := by
      decide
    rw [h] at e
    simp at e
    omega

theorem malloc_success (s : State) (l : List Nat) (fuel size : Nat)
    (hwf : WF s l) (hf : l.length < fuel) (hs : 0 < size)
    (hok : (∃ h ∈ l, fits s size h) ∨
      (sizeof_header_t + size < 2 ^ 63 ∧ s.brk + (sizeof_header_t + size) ≤ s.limit)) :
    ∃ p s1, malloc fuel s size = some (p, s1) ∧ p ≠ 0 ∧ p < 2 ^ 64 ∧ p + size ≤ s1.brk ∧
      s1.brk ≤ s.limit := by
  have hs0 : size ≠ 0 := by omega
  have hH := sizeof_header_t_eq
  rcases malloc_cases s l fuel size hwf.chain hf hs0 with
    ⟨h, pre, post, hl, hfit, _, hm⟩ | ⟨hnone, hb, hm⟩ | ⟨hnone, hb, s1, hm, hbrk, _, _, _, _⟩
  · have hmem : h ∈ l := by rw [hl]; simp
    have h1 := Tiled.block_le s.hdr s.brk l hwf.tiled h hmem
    have h2 := hwf.brk_le
    have h3 := hwf.limit_lt
    have h4 := hwf.lower h hmem
    have h5 := hwf.base_pos
    have h6 : (s.hdr h).size ≥ size := hfit.2
    refine ⟨_, _, hm, ?_, ?_, ?_, h2⟩
    · unfold uadd; omega
    · unfold uadd; omega
    · show uadd h sizeof_header_t + size ≤ s.brk
      unfold uadd; omega
  · rcases hok with ⟨h, hh, hfit⟩ | ⟨h63, hlim⟩
    · exact absurd hfit (hnone h hh)
    · exfalso
      have hu : uadd sizeof_header_t size = sizeof_header_t + size := by unfold uadd; omega
      rw [hu] at hb
      have hg := sbrk_grow s (sizeof_header_t + size) (by omega) h63 hwf.base_le hlim
      have h2 := hwf.brk_le
      have h3 := hwf.limit_lt
      omega
  · rcases hok with ⟨h, hh, hfit⟩ | ⟨h63, hlim⟩
    · exact absurd hfit (hnone h hh)
    · have hu : uadd sizeof_header_t size = sizeof_header_t + size := by unfold uadd; omega
      rw [hu] at hm hbrk
      have hg := sbrk_grow s (sizeof_header_t + size) (by omega) h63 hwf.base_le hlim
      rw [hg.1] at hm
      rw [hg.2] at hbrk
      have h2 := hwf.brk_le
      have h3 := hwf.limit_lt
      have h5 := hwf.base_pos
      have h6 := hwf.base_le
      refine ⟨_, _, hm, ?_, ?_, ?_, ?_⟩
      · unfold uadd; omega
      · unfold uadd; omega
      · rw [hbrk]; unfold uadd; omega
      · rw [hbrk]; omega

/-- C1, amended: in a well-formed state, for `size > 0`, if a free header of the chain fits,
or if `sizeof(header_t) + size` is below `2^63` and the break may move up by that amount, then
`malloc(size)` returns a non-null pointer `p` below `2^64` with `p + size` at most the break
after the call. -/
theorem malloc_returns_addressable (s : State) (l : List Nat) (fuel size : Nat)
    (hwf : WF s l) (hf : l.length < fuel) (hs : 0 < size)
    (hok : (∃ h ∈ l, fits s size h) ∨
      (sizeof_header_t + size < 2 ^ 63 ∧ s.brk + (sizeof_header_t + size) ≤ s.limit)) :
    ∃ p s1, malloc fuel s size = some (p, s1) ∧ p ≠ 0 ∧ p < 2 ^ 64 ∧ p + size ≤ s1.brk := by
  obtain ⟨p, s1, h1, h2, h3, h4, _⟩ := malloc_success s l fuel size hwf hf hs hok
  exact ⟨p, s1, h1, h2, h3, h4⟩

/-- Witness for C1 amended: `malloc(100)` in `threeBlocks`, where no free header fits and the
heap grows. -/
theorem malloc_returns_addressable_witness :
    WF threeBlocks [4096, 4136, 4176] ∧ [4096, 4136, 4176].length < 4 ∧ 0 < 100 ∧
      (sizeof_header_t + 100 < 2 ^ 63 ∧ threeBlocks.brk + (sizeof_header_t + 100) ≤ threeBlocks.limit) ∧
      ∃ p s1, malloc 4 threeBlocks 100 = some (p, s1) ∧ p ≠ 0 ∧ p < 2 ^ 64 ∧ p + 100 ≤ s1.brk :=
  ⟨wf_threeBlocks, by decide, by decide, by decide,
    malloc_returns_addressable threeBlocks [4096, 4136, 4176] 4 100 wf_threeBlocks (by decide)
      (by decide) (Or.inr (by decide))⟩

/-! ## C2 -/

/-- C2 fails on the code. `sizeof(header_t)` is 24: the struct member of the union takes 24
bytes and the union is 8-byte aligned. From a break at 4096, a multiple of 16, `malloc(1)`
returns 4120, which is 8 modulo 16, and the next `malloc(1)` returns the odd address 4145. -/
theorem malloc_pointer_misaligned :
    header_layout = (24, 8) ∧ sizeof_header_t = 24 ∧ fresh.brk % 16 = 0 ∧
      (malloc 1 fresh 1).map (fun r => (r.1, r.1 % 16)) = some (4120, 8) ∧
      (malloc 2 (stateOf (malloc 1 fresh 1) fresh) 1).map (fun r => (r.1, r.1 % 16)) =
        some (4145, 1) := by
  decide

/-! ## C3 -/

theorem malloc_result (s : State) (l : List Nat) (fuel size : Nat)
    (hc : ChainFrom s.hdr s.head l) (hf : l.length < fuel)
    (hb : s.brk + sizeof_header_t < 2 ^ 64) (hl : ∀ h ∈ l, h + sizeof_header_t < 2 ^ 64) :
    ∃ p s1, malloc fuel s size = some (p, s1) ∧
      (p = 0 ↔ size = 0 ∨ ((∀ h ∈ l, ¬ fits s size h) ∧
        (sbrk s (toIntptr (uadd sizeof_header_t size))).1 = 2 ^ 64 - 1)) ∧
      (p = 0 → s1 = s) := by
  have hH := sizeof_header_t_eq
  by_cases hs : size = 0
  · subst hs
    exact ⟨0, s, by simp [malloc], by simp, fun _ => rfl⟩
  · rcases malloc_cases s l fuel size hc hf hs with
      ⟨h, pre, post, hl1, hfit, _, hm⟩ | ⟨hnone, hbk, hm⟩ | ⟨hnone, hbk, s1, hm, _⟩
    · have hmem : h ∈ l := by rw [hl1]; simp
      have h1 := hl h hmem
      have h2 : h ≠ 0 := ChainFrom.ne_zero s.hdr l s.head hc h hmem
      have hp : uadd h sizeof_header_t ≠ 0 := by unfold uadd; omega
      refine ⟨_, _, hm, ?_, fun h0 => absurd h0 hp⟩
      constructor
      · intro h0; exact absurd h0 hp
      · rintro (h0 | ⟨hn, _⟩)
        · exact absurd h0 hs
        · exact absurd hfit (hn h hmem)
    · rcases sbrk_fst s (toIntptr (uadd sizeof_header_t size)) with h1 | ⟨_, h2⟩
      · omega
      · refine ⟨_, _, hm, ?_, fun _ => h2⟩
        constructor
        · intro _; exact Or.inr ⟨hnone, hbk⟩
        · intro _; rfl
    · rcases sbrk_fst s (toIntptr (uadd sizeof_header_t size)) with h1 | ⟨h1, _⟩
      · have hp : uadd (sbrk s (toIntptr (uadd sizeof_header_t size))).1 sizeof_header_t ≠ 0 := by
          rw [h1]; unfold uadd; omega
        refine ⟨_, _, hm, ?_, fun h0 => absurd h0 hp⟩
        constructor
        · intro h0; exact absurd h0 hp
        · rintro (h0 | ⟨_, hn⟩)
          · exact absurd h0 hs
          · exact absurd hn hbk
      · exact absurd h1 hbk

/-- C3: `malloc(0)` returns `NULL` in every state, without touching it. In a state with a
well-formed chain `l` whose headers and break lie at least `sizeof(header_t)` below the top of
the address space, `malloc(size)` returns, and it returns `NULL` exactly when `size == 0`, or
no header of the chain is free with a sufficient size and `sbrk` refuses
`sizeof(header_t) + size`; whenever it returns `NULL` the state after the call is the state
before it (`head`, `tail`, all header fields, the break, the payload bytes). -/
theorem malloc_null_iff (s : State) (l : List Nat) (fuel size : Nat)
    (hc : ChainFrom s.hdr s.head l) (hf : l.length < fuel)
    (hb : s.brk + sizeof_header_t < 2 ^ 64) (hl : ∀ h ∈ l, h + sizeof_header_t < 2 ^ 64) :
    (∀ (fuel0 : Nat) (s0 : State), malloc fuel0 s0 0 = some (0, s0)) ∧
    ∃ p s1, malloc fuel s size = some (p, s1) ∧
      (p = 0 ↔ size = 0 ∨ ((∀ h ∈ l, ¬ fits s size h) ∧
        (sbrk s (toIntptr (uadd sizeof_header_t size))).1 = 2 ^ 64 - 1)) ∧
      (p = 0 → s1 = s) :=
  ⟨fun fuel0 s0 => by simp [malloc], malloc_result s l fuel size hc hf hb hl⟩

/-- Witness for C3: `malloc(100)` in `threeBlocks`. -/
theorem malloc_null_iff_witness :
    ChainFrom threeBlocks.hdr threeBlocks.head [4096, 4136, 4176] ∧
      [4096, 4136, 4176].length < 4 ∧ threeBlocks.brk + sizeof_header_t < 2 ^ 64 ∧
      (∀ h ∈ [4096, 4136, 4176], h + sizeof_header_t < 2 ^ 64) ∧
      ((∀ (fuel0 : Nat) (s0 : State), malloc fuel0 s0 0 = some (0, s0)) ∧
      ∃ p s1, malloc 4 threeBlocks 100 = some (p, s1) ∧
        (p = 0 ↔ 100 = 0 ∨ ((∀ h ∈ [4096, 4136, 4176], ¬ fits threeBlocks 100 h) ∧
          (sbrk threeBlocks (toIntptr (uadd sizeof_header_t 100))).1 = 2 ^ 64 - 1)) ∧
        (p = 0 → s1 = threeBlocks)) :=
  ⟨by decide, by decide, by decide, by decide,
    malloc_null_iff threeBlocks [4096, 4136, 4176] 4 100 (by decide) (by decide) (by decide)
      (by decide)⟩

/-! ## C4 -/

/-- C4: on a state whose chain from `head` is `l`, `get_free_block(size)` returns, and its
result `r` is first-fit: if `r` is not `NULL` it is a header of the chain that is free with
`size(r) >= size` and every header before it in the chain is in use or smaller than `size`;
and `r` is `NULL` if and only if no header of the chain is free with a sufficient size. -/
theorem get_free_block_first_fit (s : State) (l : List Nat) (size fuel : Nat)
    (hc : ChainFrom s.hdr s.head l) (hf : l.length < fuel) :
    ∃ r, get_free_block fuel s size = some r ∧
      (r ≠ 0 → ∃ pre post, l = pre ++ r :: post ∧ fits s size r ∧ ∀ x ∈ pre, ¬ fits s size x) ∧
      (r = 0 ↔ ∀ x ∈ l, ¬ fits s size x) :=
  get_free_block_loop_spec s size l s.head fuel hc hf

/-- Witness for C4: `get_free_block(10)` on `threeBlocks`. -/
theorem get_free_block_first_fit_witness :
    ChainFrom threeBlocks.hdr threeBlocks.head [4096, 4136, 4176] ∧
      [4096, 4136, 4176].length < 4 ∧
      ∃ r, get_free_block 4 threeBlocks 10 = some r ∧
        (r ≠ 0 → ∃ pre post, [4096, 4136, 4176] = pre ++ r :: post ∧ fits threeBlocks 10 r ∧
          ∀ x ∈ pre, ¬ fits threeBlocks 10 x) ∧
        (r = 0 ↔ ∀ x ∈ [4096, 4136, 4176], ¬ fits threeBlocks 10 x) :=
  ⟨by decide, by decide,
    get_free_block_first_fit threeBlocks [4096, 4136, 4176] 10 4 (by decide) (by decide)⟩

theorem eq_some_stateOf (r : Option (Nat × State)) (p : Nat) (d : State)
    (h : r.map (fun x => x.1) = some p) : r = some (p, stateOf r d) := by
  cases r with
  | none => simp at h
  | some x =>
    obtain ⟨q, t⟩ := x
    simp at h
    subst h
    rfl

theorem eq_some_getD (r : Option State) (d : State) (h : r.isSome = true) :
    r = some (r.getD d) := by
  cases r with
  | none => simp at h
  | some x => rfl

theorem reachable_fresh : Reachable fresh :=
  Reachable.init 4096 8192 (by decide) (by decide) (by decide)

theorem reachable_oneBlock : Reachable oneBlock :=
  Reachable.malloc 1 8 4120 reachable_fresh (by decide) (eq_some_stateOf _ _ _ (by decide))

theorem reachable_wrapped : Reachable wrapped :=
  Reachable.malloc 2 (2 ^ 64 - 24) 4152 reachable_oneBlock (by decide)
    (eq_some_stateOf _ _ _ (by decide))

theorem reachable_threeUsed : Reachable threeUsed :=
  Reachable.malloc 3 16 4200
    (Reachable.malloc 2 16 4160
      (Reachable.malloc 1 16 4120 reachable_fresh (by decide) (eq_some_stateOf _ _ _ (by decide)))
      (by decide) (eq_some_stateOf _ _ _ (by decide)))
    (by decide) (eq_some_stateOf _ _ _ (by decide))

theorem reachable_threeBlocks : Reachable threeBlocks :=
  Reachable.store _
    (Reachable.free 4 4120 reachable_threeUsed
      (Or.inr ⟨[4096, 4136, 4176], by decide, 4096, by decide, by decide, by decide, by decide⟩)
      (eq_some_getD _ _ (by decide)))

theorem ChainFrom.setFree (hdr : Nat → Header) (h v : Nat) :
    ∀ (l : List Nat) (a : Nat), ChainFrom hdr a l → ChainFrom (setFree hdr h v) a l := by
  intro l
  induction l with
  | nil => intro a hc; exact hc
  | cons x xs ih =>
    intro a hc
    obtain ⟨hax, hx0, hrest⟩ := hc
    refine ⟨hax, hx0, ?_⟩
    have hn : (MemAlloc.setFree hdr h v x).next = (hdr x).next := by
      unfold MemAlloc.setFree
      split <;> rfl
    rw [hn]
    exact ih _ hrest

/-- The scan of `get_free_block` stops at `h` when `h` fits and the only header before it
that may fit is `h` itself. -/
theorem get_free_block_loop_at (s : State) (size h : Nat) (post : List Nat)
    (hfit : fits s size h) :
    ∀ (pre : List Nat) (a fuel : Nat), ChainFrom s.hdr a (pre ++ h :: post) →
      (pre ++ h :: post).length < fuel → (∀ x ∈ pre, fits s size x → x = h) →
      get_free_block_loop s size fuel a = some h := by
  intro pre
  induction pre with
  | nil =>
    intro a fuel hc hf _
    obtain ⟨hax, hx0, _⟩ := hc
    subst hax
    cases fuel with
    | zero => simp at hf
    | succ f =>
      have h1 : (s.hdr a).is_free ≠ 0 ∧ (s.hdr a).size ≥ size := hfit
      rw [get_free_block_loop, if_neg hx0, if_pos h1]
  | cons x xs ih =>
    intro a fuel hc hf hpre
    obtain ⟨hax, hx0, hrest⟩ := hc
    subst hax
    cases fuel with
    | zero => simp at hf
    | succ f =>
      have hf1 : (xs ++ h :: post).length < f := by
        simp only [List.cons_append, List.length_cons] at hf
        omega
      by_cases hx : fits s size a
      · have hah : a = h := hpre a (by simp) hx
        have h1 : (s.hdr a).is_free ≠ 0 ∧ (s.hdr a).size ≥ size := hx
        rw [get_free_block_loop, if_neg hx0, if_pos h1, hah]
      · have h1 : ¬ ((s.hdr a).is_free ≠ 0 ∧ (s.hdr a).size ≥ size) := hx
        rw [get_free_block_loop, if_neg hx0, if_neg h1]
        exact ih _ f hrest hf1 (fun y hy => hpre y (List.mem_cons_of_mem _ hy))

/-! ## C5 -/

/-- C5, as stated, fails. In the reachable state `threeBlocks` the block `p = 4160` (header
4136, size 16) is live and is not the last block of the heap, yet after `free(p)` the call
`malloc(16)` returns 4120: the free block at the front of the chain fits and comes first. -/
theorem free_then_malloc_returns_earlier_block :
    Reachable threeBlocks ∧ WF threeBlocks [4096, 4136, 4176] ∧
      Live threeBlocks [4096, 4136, 4176] 4160 ∧
      uadd 4160 (threeBlocks.hdr (usub 4160 sizeof_header_t)).size ≠ threeBlocks.brk ∧
      16 ≤ (threeBlocks.hdr (usub 4160 sizeof_header_t)).size ∧
      ((free 4 threeBlocks 4160).bind (fun s1 => malloc 4 s1 16)).map (fun r => r.1) =
        some 4120 :=
  ⟨reachable_threeBlocks, wf_threeBlocks, ⟨4136, by decide, by decide, by decide, by decide⟩,
    by decide, by decide, by decide⟩

/-- C5, amended: let `p` be a live block of a state with chain `l` that is not the last block
of the heap (`p + size(p)` is not the break), and let `0 < sz <= size(p)`. If every header that
precedes the header of `p` in the chain is in use or smaller than `sz`, then `free(p)` followed
by `malloc(sz)` returns `p` again. -/
theorem free_then_malloc_returns_same (s : State) (l pre post : List Nat) (fuel p sz : Nat)
    (hc : ChainFrom s.hdr s.head l) (hf : l.length < fuel) (hlive : Live s l p)
    (hnl : uadd p (s.hdr (usub p sizeof_header_t)).size ≠ s.brk)
    (hs : 0 < sz) (hsz : sz ≤ (s.hdr (usub p sizeof_header_t)).size)
    (hl : l = pre ++ usub p sizeof_header_t :: post) (hpre : ∀ x ∈ pre, ¬ fits s sz x) :
    ∃ s1 s2, free fuel s p = some s1 ∧ malloc fuel s1 sz = some (p, s2) := by
  have hH := sizeof_header_t_eq
  obtain ⟨h, hmem, hp, hp64, hused⟩ := hlive
  have hh : usub p sizeof_header_t = h := by unfold usub; omega
  rw [hh] at hnl hsz hl
  have hp0 : p ≠ 0 := by omega
  have hb : (sbrk s 0).1 = s.brk := by simp [sbrk]
  have hfree : free fuel s p = some { s with hdr := setFree s.hdr h 1 } := by
    simp only [free, hp0, hh, hb, hnl, if_false]
  refine ⟨_, { s with hdr := setFree (setFree s.hdr h 1) h 0 }, hfree, ?_⟩
  have hfit : fits { s with hdr := setFree s.hdr h 1 } sz h := by
    unfold fits setFree
    simp
    exact hsz
  have hc1 : ChainFrom (setFree s.hdr h 1) s.head (pre ++ h :: post) := by
    rw [← hl]
    exact ChainFrom.setFree s.hdr h 1 l s.head hc
  have hpre1 : ∀ x ∈ pre, fits { s with hdr := setFree s.hdr h 1 } sz x → x = h := by
    intro x hx hfx
    by_contra hne
    apply hpre x hx
    unfold fits setFree at hfx
    simp only [if_neg hne] at hfx
    exact hfx
  have hg : get_free_block fuel { s with hdr := setFree s.hdr h 1 } sz = some h :=
    get_free_block_loop_at _ sz h post hfit pre s.head fuel hc1 (by rw [← hl]; exact hf) hpre1
  have hsz0 : sz ≠ 0 := by omega
  have hh0 : h ≠ 0 := ChainFrom.ne_zero s.hdr l s.head hc h hmem
  have hpu : uadd h sizeof_header_t = p := by unfold uadd; omega
  simp only [malloc, hsz0, hg, hh0, hpu, if_false, ne_eq, not_false_eq_true, if_true]

/-- Witness for C5 amended: in `threeUsed` the middle block `p = 4160` is released and
handed out again by `malloc(10)`. -/
theorem free_then_malloc_returns_same_witness :
    ChainFrom threeUsed.hdr threeUsed.head [4096, 4136, 4176] ∧
      [4096, 4136, 4176].length < 4 ∧ Live threeUsed [4096, 4136, 4176] 4160 ∧
      uadd 4160 (threeUsed.hdr (usub 4160 sizeof_header_t)).size ≠ threeUsed.brk ∧
      0 < 10 ∧ 10 ≤ (threeUsed.hdr (usub 4160 sizeof_header_t)).size ∧
      [4096, 4136, 4176] = [4096] ++ usub 4160 sizeof_header_t :: [4176] ∧
      (∀ x ∈ [4096], ¬ fits threeUsed 10 x) ∧
      ∃ s1 s2, free 4 threeUsed 4160 = some s1 ∧ malloc 4 s1 10 = some (4160, s2) :=
  ⟨by decide, by decide, ⟨4136, by decide, by decide, by decide, by decide⟩, by decide,
    by decide, by decide, by decide, by decide,
    free_then_malloc_returns_same threeUsed [4096, 4136, 4176] [4096] [4176] 4 4160 10
      (by decide) (by decide) ⟨4136, by decide, by decide, by decide, by decide⟩ (by decide)
      (by decide) (by decide) (by decide) (by decide)⟩

/-! ## C6 -/

/-- C6 fails on the code. The state `wrapped` is reached by `A = malloc(8)` and
`B = malloc(2^64 - 24)`; the second call wraps `total_size` to 0 and leaves the break at 4128,
the end of `A`. The block `A = 4120` is live and its header 4096 is not the tail (the tail is
4128), yet `free(A)` finds `A + size(A)` equal to the break, unlinks the tail and lowers the
break from 4128 to 4096; the header of `A` stays in the chain, marked in use. -/
theorem free_non_tail_lowers_break :
    Reachable wrapped ∧ LivePtr wrapped 4120 ∧ wrapped.tail = 4128 ∧
      usub 4120 sizeof_header_t ≠ wrapped.tail ∧ wrapped.brk = 4128 ∧
      (free 3 wrapped 4120).map (fun s => (s.brk, s.head, s.tail, (s.hdr 4096).is_free)) =
        some (4096, 4096, 4096, 0) :=
  ⟨reachable_wrapped,
    ⟨[4096, 4128], by decide, 4096, by decide, by decide, by decide, by decide⟩,
    by decide, by decide, by decide, by decide⟩

/-! ## C7 -/

theorem mul_roundtrip_iff (num nsize : Nat) (hn : num ≠ 0) :
    (num * nsize) % 2 ^ 64 / num = nsize ↔ num * nsize < 2 ^ 64 := by
  constructor
  · intro h
    by_contra hge
    have h1 : (num * nsize) % 2 ^ 64 < 2 ^ 64 := Nat.mod_lt _ (by positivity)
    have h2 : (num * nsize) % 2 ^ 64 / num * num ≤ (num * nsize) % 2 ^ 64 :=
      Nat.div_mul_le_self _ _
    rw [h, Nat.mul_comm] at h2
    omega
  · intro h
    rw [Nat.mod_eq_of_lt h]
    exact Nat.mul_div_cancel_left nsize (Nat.pos_of_ne_zero hn)

theorem calloc_reject (fuel : Nat) (s : State) (num nsize : Nat)
    (h : num = 0 ∨ nsize = 0 ∨ 2 ^ 64 ≤ num * nsize) : calloc fuel s num nsize = some (0, s) := by
  by_cases h0 : num = 0 ∨ nsize = 0
  · simp [calloc, h0]
  · have hn : num ≠ 0 := fun e => h0 (Or.inl e)
    have hge : 2 ^ 64 ≤ num * nsize := by
      rcases h with h | h | h
      · exact absurd h hn
      · exact absurd (Or.inr h) h0
      · exact h
    have hne : nsize ≠ (num * nsize) % 2 ^ 64 / num := by
      intro e
      have := (mul_roundtrip_iff num nsize hn).mp e.symm
      omega
    simp only [calloc, h0, hne, if_false, ne_eq, not_false_eq_true, if_true]

theorem calloc_exact (fuel : Nat) (s : State) (num nsize : Nat) (hn : num ≠ 0)
    (hk : nsize ≠ 0) (hlt : num * nsize < 2 ^ 64) :
    calloc fuel s num nsize =
      match malloc fuel s (num * nsize) with
      | none => none
      | some (block, s1) =>
        if block = 0 then some (0, s1)
        else
          match memset s1 block 0 (num * nsize) with
          | none => none
          | some s2 => some (block, s2) := by
  have h0 : ¬ (num = 0 ∨ nsize = 0) := by
    rintro (e | e)
    · exact hn e
    · exact hk e
  have he : nsize = (num * nsize) % 2 ^ 64 / num :=
    ((mul_roundtrip_iff num nsize hn).mpr hlt).symm
  have hm : (num * nsize) % 2 ^ 64 = num * nsize := Nat.mod_eq_of_lt hlt
  simp only [calloc, h0, if_false, hm, ne_eq]
  rw [hm] at he
  simp only [← he, not_true_eq_false, if_false]

/-- C7: `calloc(num, nsize)` returns `NULL`, leaving the state as it was, whenever `num == 0`,
`nsize == 0` or the product `num * nsize` is `2^64` or more; for `num != 0` the test of the
code, `((num * nsize) mod 2^64) / num == nsize`, holds exactly when the product is below
`2^64`; and in every other case the size handed to `malloc` and to `memset` is the exact
product `num * nsize`. -/
theorem calloc_overflow_check (fuel : Nat) (s : State) (num nsize : Nat) :
    (num = 0 ∨ nsize = 0 ∨ 2 ^ 64 ≤ num * nsize → calloc fuel s num nsize = some (0, s)) ∧
    (num ≠ 0 → ((num * nsize) % 2 ^ 64 / num = nsize ↔ num * nsize < 2 ^ 64)) ∧
    (num ≠ 0 → nsize ≠ 0 → num * nsize < 2 ^ 64 →
      calloc fuel s num nsize =
        match malloc fuel s (num * nsize) with
        | none => none
        | some (block, s1) =>
          if block = 0 then some (0, s1)
          else
            match memset s1 block 0 (num * nsize) with
            | none => none
            | some s2 => some (block, s2)) :=
  ⟨calloc_reject fuel s num nsize, mul_roundtrip_iff num nsize, calloc_exact fuel s num nsize⟩

/-- Witness for C7: `calloc(2^63, 2)`, whose product is `2^64`, is refused. -/
theorem calloc_overflow_check_witness : calloc 1 fresh (2 ^ 63) 2 = some (0, fresh) :=
  (calloc_overflow_check 1 fresh (2 ^ 63) 2).1 (Or.inr (Or.inr (by decide)))

/-! ## C8 -/

theorem sbrk_moved (s : State) (i : Int) (h : (sbrk s i).1 ≠ 2 ^ 64 - 1) :
    (sbrk s i).1 = s.brk ∧ ((sbrk s i).2.brk : Int) = (s.brk : Int) + i ∧
      (i ≠ 0 → (s.base : Int) ≤ (s.brk : Int) + i) := by
  unfold sbrk at h ⊢
  by_cases h0 : i = 0
  · subst h0
    simp
  · by_cases h1 : (s.base : Int) ≤ (s.brk : Int) + i ∧ (s.brk : Int) + i ≤ (s.limit : Int)
    · rw [if_neg h0, if_pos h1]
      refine ⟨rfl, ?_, fun _ => h1.1⟩
      show ((((s.brk : Int) + i).toNat : Nat) : Int) = (s.brk : Int) + i
      omega
    · rw [if_neg h0, if_neg h1] at h
      exact absurd rfl h

theorem toIntptr_total (size : Nat) (h : size < 2 ^ 64) :
    (sizeof_header_t + size < 2 ^ 63 ∧
        toIntptr (uadd sizeof_header_t size) = ((sizeof_header_t + size : Nat) : Int)) ∨
      (2 ^ 63 ≤ sizeof_header_t + size ∧
        toIntptr (uadd sizeof_header_t size) = ((sizeof_header_t + size : Nat) : Int) - 2 ^ 64) := by
  have hH := sizeof_header_t_eq
  unfold toIntptr uadd
  by_cases h1 : sizeof_header_t + size < 2 ^ 63
  · left
    refine ⟨h1, ?_⟩
    have h2 : (sizeof_header_t + size) % 2 ^ 64 = sizeof_header_t + size := by omega
    rw [h2, if_pos h1]
  · right
    refine ⟨by omega, ?_⟩
    by_cases h2 : sizeof_header_t + size < 2 ^ 64
    · have h3 : (sizeof_header_t + size) % 2 ^ 64 = sizeof_header_t + size := by omega
      rw [h3, if_neg h1]
    · have h3 : (sizeof_header_t + size) % 2 ^ 64 = sizeof_header_t + size - 2 ^ 64 := by omega
      have h4 : sizeof_header_t + size - 2 ^ 64 < 2 ^ 63 := by omega
      rw [h3, if_pos h4]
      omega

theorem memset_spec (s s1 : State) (d c n : Nat) (h : memset s d c n = some s1) :
    d + n ≤ 2 ^ 64 ∧ s1.brk = s.brk ∧ ∀ a, d ≤ a → a < d + n → s1.mem a = c := by
  unfold memset at h
  by_cases hd : d + n ≤ 2 ^ 64
  · rw [if_pos hd] at h
    injection h with h
    subst h
    refine ⟨hd, rfl, ?_⟩
    intro a h1 h2
    show (if d ≤ a ∧ a < d + n then c else s.mem a) = c
    rw [if_pos ⟨h1, h2⟩]
  · rw [if_neg hd] at h
    exact absurd h (by simp)

theorem calloc_success (fuel : Nat) (s s1 : State) (num nsize p : Nat) (hn : num ≠ 0)
    (hk : nsize ≠ 0) (hlt : num * nsize < 2 ^ 64) (h : calloc fuel s num nsize = some (p, s1))
    (hp : p ≠ 0) :
    ∃ s0, malloc fuel s (num * nsize) = some (p, s0) ∧ memset s0 p 0 (num * nsize) = some s1 := by
  rw [calloc_exact fuel s num nsize hn hk hlt] at h
  cases hm : malloc fuel s (num * nsize) with
  | none => rw [hm] at h; simp at h
  | some x =>
    obtain ⟨b, s0⟩ := x
    rw [hm] at h
    simp only at h
    by_cases hb : b = 0
    · rw [if_pos hb] at h
      simp at h
      exact absurd h.1.symm hp
    · rw [if_neg hb] at h
      cases hs : memset s0 b 0 (num * nsize) with
      | none => rw [hs] at h; simp at h
      | some s2 =>
        rw [hs] at h
        simp at h
        obtain ⟨h1, h2⟩ := h
        subst h1 h2
        exact ⟨s0, rfl, hs⟩

/-- The zero-filled region of `calloc` on well-formed states, for `n > 0` and `k > 0` with
`n * k < 2^64`: whenever `calloc(n, k)` returns a non-null pointer `p`, the `n * k` bytes from
`p` on lie above the heap base and below the break after the call and every one of them is
zero, whatever the payload memory held before (a reused free block included); and the call
does return a non-null pointer when a free header fits `n * k`, or when
`sizeof(header_t) + n * k` is below `2^63` and the break may move up by that amount. -/
theorem calloc_zero_filled (s : State) (l : List Nat) (fuel n k : Nat) (hwf : WF s l)
    (hf : l.length < fuel) (hn : 0 < n) (hk : 0 < k) (hov : n * k < 2 ^ 64) :
    (∀ p s1, calloc fuel s n k = some (p, s1) → p ≠ 0 →
      s.base < p ∧ p + n * k ≤ s1.brk ∧ ∀ a, p ≤ a → a < p + n * k → s1.mem a = 0) ∧
    ((∃ h ∈ l, fits s (n * k) h) ∨
        (sizeof_header_t + n * k < 2 ^ 63 ∧ s.brk + (sizeof_header_t + n * k) ≤ s.limit) →
      ∃ p s1, calloc fuel s n k = some (p, s1) ∧ p ≠ 0) := by
  have hH := sizeof_header_t_eq
  have hn0 : n ≠ 0 := by omega
  have hk0 : k ≠ 0 := by omega
  have hpos : 0 < n * k := Nat.mul_pos hn hk
  have hsz0 : n * k ≠ 0 := by omega
  have h2 := hwf.brk_le
  have h3 := hwf.limit_lt
  have h5 := hwf.base_pos
  have h6 := hwf.base_le
  constructor
  · intro p s1 hc hp
    obtain ⟨s0, hm0, hms⟩ := calloc_success fuel s s1 n k p hn0 hk0 hov hc hp
    obtain ⟨hfit64, hbrk1, hzero⟩ := memset_spec s0 s1 p 0 (n * k) hms
    suffices hreg : s.base < p ∧ p + n * k ≤ s0.brk by
      exact ⟨hreg.1, by rw [hbrk1]; exact hreg.2, hzero⟩
    rcases malloc_cases s l fuel (n * k) hwf.chain hf hsz0 with
      ⟨h, pre, post, hl, hfit, _, hm⟩ | ⟨_, _, hm⟩ | ⟨_, hb, s2, hm, hbrk, _, _, _, _⟩
    · rw [hm] at hm0
      injection hm0 with hm0
      injection hm0 with e1 e2
      subst e2
      have hmem : h ∈ l := by rw [hl]; simp
      have h1 := Tiled.block_le s.hdr s.brk l hwf.tiled h hmem
      have h4 := hwf.lower h hmem
      have h7 : (s.hdr h).size ≥ n * k := hfit.2
      show s.base < p ∧ p + n * k ≤ s.brk
      rw [← e1]
      unfold uadd
      omega
    · rw [hm] at hm0
      injection hm0 with hm0
      injection hm0 with e1 e2
      exact absurd e1.symm hp
    · rw [hm] at hm0
      injection hm0 with hm0
      injection hm0 with e1 e2
      subst e2
      obtain ⟨hfst, hnew, hlow⟩ :=
        sbrk_moved s (toIntptr (uadd sizeof_header_t (n * k))) hb
      rw [hfst] at e1
      rw [hbrk]
      have hp1 : p = s.brk + sizeof_header_t := by
        rw [← e1]; unfold uadd; omega
      have hI := toIntptr_total (n * k) hov
      generalize toIntptr (uadd sizeof_header_t (n * k)) = I at hnew hlow hI ⊢
      generalize (sbrk s I).2.brk = B at hnew ⊢
      rcases hI with ⟨_, hI⟩ | ⟨hge, hI⟩
      · omega
      · have hne : I ≠ 0 := by omega
        have := hlow hne
        omega
  · intro hok
    obtain ⟨p, s0, hm, hp, _, hle, hlim⟩ := malloc_success s l fuel (n * k) hwf hf hpos hok
    have hd : p + n * k ≤ 2 ^ 64 := by omega
    refine ⟨p, { s0 with mem := fun a => if p ≤ a ∧ a < p + n * k then 0 else s0.mem a }, ?_, hp⟩
    rw [calloc_exact fuel s n k hn0 hk0 hov, hm]
    simp only [hp, if_false, memset, hd, if_true]

/-- An instance of `calloc_zero_filled`: `calloc(2, 5)` in `threeBlocks`, whose payload memory holds the byte 255
everywhere, reuses the free block at 4120 and hands it out zeroed. -/
theorem calloc_zero_filled_witness :
    WF threeBlocks [4096, 4136, 4176] ∧ [4096, 4136, 4176].length < 4 ∧ 0 < 2 ∧ 0 < 5 ∧
      2 * 5 < 2 ^ 64 ∧ threeBlocks.mem 4120 = 255 ∧
      ((∀ p s1, calloc 4 threeBlocks 2 5 = some (p, s1) → p ≠ 0 →
        threeBlocks.base < p ∧ p + 2 * 5 ≤ s1.brk ∧
          ∀ a, p ≤ a → a < p + 2 * 5 → s1.mem a = 0) ∧
      ((∃ h ∈ [4096, 4136, 4176], fits threeBlocks (2 * 5) h) ∨
          (sizeof_header_t + 2 * 5 < 2 ^ 63 ∧
            threeBlocks.brk + (sizeof_header_t + 2 * 5) ≤ threeBlocks.limit) →
        ∃ p s1, calloc 4 threeBlocks 2 5 = some (p, s1) ∧ p ≠ 0)) :=
  ⟨wf_threeBlocks, by decide, by decide, by decide, by decide, by decide,
    calloc_zero_filled threeBlocks [4096, 4136, 4176] 4 2 5 wf_threeBlocks (by decide)
      (by decide) (by decide) (by decide)⟩

theorem reachable_dipped : Reachable dipped :=
  Reachable.free 4 4152
    (Reachable.malloc 3 (2 ^ 64 - 56) 4184
      (Reachable.malloc 2 8 4152
        (Reachable.malloc 1 8 4120 reachable_fresh (by decide) (eq_some_stateOf _ _ _ (by decide)))
        (by decide) (eq_some_stateOf _ _ _ (by decide)))
      (by decide) (eq_some_stateOf _ _ _ (by decide)))
    (Or.inr ⟨[4096, 4128, 4160], by decide, 4128, by decide, by decide, by decide, by decide⟩)
    (eq_some_getD _ _ (by decide))

/-- The concrete contents of `dipped`: the free header 4128 sits at the break. -/
theorem dipped_shape :
    (twoSmall.head, twoSmall.tail, twoSmall.brk) = (4096, 4128, 4160) ∧
      (malloc 3 twoSmall (2 ^ 64 - 56)).map (fun r => (r.1, r.2.brk)) = some (4184, 4128) ∧
      (dipped.head, dipped.tail, dipped.brk) = (4096, 4160, 4128) ∧
      ((dipped.hdr 4096).size, (dipped.hdr 4096).is_free, (dipped.hdr 4096).next) =
        (8, 0, 4128) ∧
      ((dipped.hdr 4128).size, (dipped.hdr 4128).is_free, (dipped.hdr 4128).next) =
        (8, 1, 4160) ∧
      ((dipped.hdr 4160).size, (dipped.hdr 4160).is_free, (dipped.hdr 4160).next) =
        (2 ^ 64 - 56, 0, 0) := by
  decide

/-- C8 fails on the code. The state `dipped` is reached by `malloc(8)`, `malloc(8)`,
`malloc(2^64 - 56)` and `free(4152)`: the third call hands `-32` to `sbrk`, which lowers the
break to 4128, and the fourth marks the header 4128 free. There `calloc(1, 8)`, whose product
8 does not overflow, succeeds: it reuses that header and returns 4152 with the 8 bytes zeroed,
but the break is still 4128, so the region from 4152 to 4160 does not lie inside the heap. -/
theorem calloc_region_above_break :
    Reachable dipped ∧ 1 * 8 < 2 ^ 64 ∧
      (calloc 4 dipped 1 8).map (fun r => (r.1, r.2.brk, r.2.mem 4152, r.2.mem 4159)) =
        some (4152, 4128, 0, 0) ∧
      ¬ (4152 + 1 * 8 ≤ 4128) :=
  ⟨reachable_dipped, by decide, by decide, by decide⟩

/-! ## C9 -/

/-- C9, as stated, fails. In `oneBlock` the block `p = 4120` is live with size 8, and
`realloc(p, 0)`, where `0 <= size(p)`, returns `NULL` instead of `p`. -/
theorem realloc_zero_returns_null :
    Live oneBlock [4096] 4120 ∧ 0 ≤ (oneBlock.hdr (usub 4120 sizeof_header_t)).size ∧
      (realloc 2 oneBlock 4120 0).map (fun r => r.1) = some 0 :=
  ⟨⟨4096, by decide, by decide, by decide, by decide⟩, by decide, by decide⟩

/-- C9, amended: for every non-null block `p` (in particular every live block) and every `sz`
with `0 < sz <= size(p)`, `realloc(p, sz)` returns `p` itself and the state after the call is
the state before it: `head`, `tail`, every header field, the break and all payload bytes. -/
theorem realloc_within_size (fuel : Nat) (s : State) (p sz : Nat) (hp : p ≠ 0) (hs : 0 < sz)
    (hsz : sz ≤ (s.hdr (usub p sizeof_header_t)).size) :
    realloc fuel s p sz = some (p, s) := by
  have h0 : ¬ (p = 0 ∨ sz = 0) := by
    rintro (e | e)
    · exact hp e
    · omega
  have h1 : (s.hdr (usub p sizeof_header_t)).size ≥ sz := hsz
  simp only [realloc, h0, h1, if_false, if_true]

/-- Witness for C9 amended: `realloc(4160, 10)` on the live block of size 16 in
`threeBlocks`. -/
theorem realloc_within_size_witness :
    (4160 : Nat) ≠ 0 ∧ 0 < 10 ∧ 10 ≤ (threeBlocks.hdr (usub 4160 sizeof_header_t)).size ∧
      realloc 4 threeBlocks 4160 10 = some (4160, threeBlocks) :=
  ⟨by decide, by decide, by decide,
    realloc_within_size 4 threeBlocks 4160 10 (by decide) (by decide) (by decide)⟩

/-! ## C10 -/

/-- C10 fails on the code. In `oneBlock` the block `p = 4120` is live with size 8. The call
`realloc(p, 2^64 - 24)` runs `malloc(2^64 - 24)`, which wraps `total_size` to 0 and returns
4152 without moving the break; `free(p)` then finds `p + 8` equal to the break, unlinks the
tail, which is the new header 4128, and lowers the break to 4096. The call returns 4152, the
header of `p` is still in the chain and still marked in use, and the break lies below both
blocks. -/
theorem realloc_keeps_old_header :
    WF oneBlock [4096] ∧ Live oneBlock [4096] 4120 ∧
      (oneBlock.hdr (usub 4120 sizeof_header_t)).size < 2 ^ 64 - 24 ∧
      (malloc 3 oneBlock (2 ^ 64 - 24)).map (fun r => r.1) = some 4152 ∧
      (realloc 3 oneBlock 4120 (2 ^ 64 - 24)).map
          (fun r => (r.1, r.2.head, r.2.tail, (r.2.hdr 4096).is_free, (r.2.hdr 4096).next, r.2.brk)) =
        some (4152, 4096, 4096, 0, 0, 4096) :=
  ⟨wf_oneBlock, ⟨4096, by decide, by decide, by decide, by decide⟩, by decide, by decide,
    by decide⟩

/-! ## `free` on well-formed states -/

theorem Tiled.split_last (hdr : Nat → Header) (e t : Nat) :
    ∀ pre : List Nat, Tiled hdr e (pre ++ [t]) →
      t + sizeof_header_t + (hdr t).size = e ∧ Tiled hdr t pre ∧
        ∀ x ∈ pre, x + sizeof_header_t + (hdr x).size ≤ t := by
  intro pre
  induction pre with
  | nil =>
    intro ht
    exact ⟨ht, trivial, by simp⟩
  | cons x xs ih =>
    intro ht
    cases xs with
    | nil =>
      obtain ⟨hxt, hlast⟩ := ht
      refine ⟨hlast, hxt, ?_⟩
      intro y hy
      have hyx : y = x := by simpa using hy
      subst hyx
      exact le_of_eq hxt
    | cons y ys =>
      obtain ⟨hxy, hrest⟩ := ht
      obtain ⟨h1, h2, h3⟩ := ih hrest
      refine ⟨h1, ⟨hxy, h2⟩, ?_⟩
      intro z hz
      rcases List.mem_cons.mp hz with rfl | hz
      · have := h3 y (by simp)
        omega
      · exact h3 z hz

theorem ChainFrom.next_mem (hdr : Nat → Header) (x q t a : Nat) (xs : List Nat)
    (hc : ChainFrom hdr a (x :: (xs ++ [q, t]))) : (hdr x).next ∈ xs ++ [q] := by
  obtain ⟨_, _, hrest⟩ := hc
  cases xs with
  | nil =>
    have h1 : (hdr x).next = q := hrest.1
    simp [h1]
  | cons z zs =>
    have h1 : (hdr x).next = z := hrest.1
    simp [h1]

/-- The predecessor scan of `free` on a chain `pre ++ [q, t]` whose last header `t` is the
tail and occurs nowhere else: it ends with `q->next = NULL` and `tail = q`. -/
theorem free_loop_unlink (q t : Nat) :
    ∀ (pre : List Nat) (s : State) (a fuel : Nat), ChainFrom s.hdr a (pre ++ [q, t]) →
      s.tail = t → t ∉ pre ++ [q] → (pre ++ [q, t]).length ≤ fuel →
      free_loop fuel s a = some { s with hdr := setNext s.hdr q 0, tail := q } := by
  intro pre
  induction pre with
  | nil =>
    intro s a fuel hc htail _ hf
    obtain ⟨haq, hq0, hrest⟩ := hc
    subst haq
    have hnext : (s.hdr a).next = s.tail := by rw [htail]; exact hrest.1
    match fuel, hf with
    | f + 2, _ =>
      have hz : (setNext s.hdr a 0 a).next = 0 := by simp [setNext]
      simp only [free_loop, hq0, hnext, if_false, if_true, hz]
  | cons x xs ih =>
    intro s a fuel hc htail hnot hf
    have hmem := ChainFrom.next_mem s.hdr x q t a xs hc
    obtain ⟨hax, hx0, hrest⟩ := hc
    subst hax
    have hne : (s.hdr a).next ≠ s.tail := by
      intro e
      rw [htail] at e
      apply hnot
      rw [← e]
      exact List.mem_cons_of_mem _ hmem
    match fuel, hf with
    | f + 1, hf =>
      have hf1 : (xs ++ [q, t]).length ≤ f := by
        simp only [List.cons_append, List.length_cons] at hf
        omega
      have hnot1 : t ∉ xs ++ [q] := fun hin => hnot (List.mem_cons_of_mem _ hin)
      simp only [free_loop, hx0, hne, if_false]
      exact ih s _ f hrest htail hnot1 hf1

theorem sbrk_shrink (s : State) (n : Nat) (hn : 0 < n) (hb : s.base + n ≤ s.brk)
    (hl : s.brk ≤ s.limit + n) : (sbrk s (-(n : Int))).2.brk + n = s.brk := by
  unfold sbrk
  have h0 : ¬ (-(n : Int) = 0) := by omega
  have h1 : (s.base : Int) ≤ (s.brk : Int) + -(n : Int) ∧
      (s.brk : Int) + -(n : Int) ≤ (s.limit : Int) := by
    constructor <;> omega
  rw [if_neg h0, if_pos h1]
  show ((s.brk : Int) + -(n : Int)).toNat + n = s.brk
  omega

/-- The effect of `free(p)` on the break, in a well-formed state and for a live block `p` with
header `h`: if `h` is the tail the call returns with the break lowered by exactly
`sizeof(header_t) + size(h)`; otherwise it returns with the break where it was. -/
theorem free_break_wf (s : State) (l : List Nat) (fuel p : Nat) (hwf : WF s l)
    (hf : l.length < fuel) (hlive : Live s l p) :
    (usub p sizeof_header_t = s.tail →
      ∃ s1, free fuel s p = some s1 ∧
        s1.brk + (sizeof_header_t + (s.hdr (usub p sizeof_header_t)).size) = s.brk) ∧
    (usub p sizeof_header_t ≠ s.tail → ∃ s1, free fuel s p = some s1 ∧ s1.brk = s.brk) := by
  have hH := sizeof_header_t_eq
  obtain ⟨h, hmem, hp, hp64, _⟩ := hlive
  have hh : usub p sizeof_header_t = h := by unfold usub; omega
  rw [hh]
  have hp0 : p ≠ 0 := by omega
  have hb : (sbrk s 0).1 = s.brk := by simp [sbrk]
  have h2 := hwf.brk_le
  have h3 := hwf.limit_lt
  have hlow := hwf.lower h hmem
  have hsmall := hwf.small h hmem
  have hne : l ≠ [] := List.ne_nil_of_mem hmem
  obtain ⟨pre, t, hl⟩ : ∃ pre t, l = pre ++ [t] :=
    ⟨l.dropLast, l.getLast hne, (List.dropLast_append_getLast hne).symm⟩
  have htail : s.tail = t := by
    rw [hwf.tail_last, hl]
    simp
  have htiled := hwf.tiled
  rw [hl] at htiled
  obtain ⟨hend, _, hbefore⟩ := Tiled.split_last s.hdr s.brk t pre htiled
  have hnotin : t ∉ pre := by
    intro hin
    have := hbefore t hin
    omega
  by_cases hht : h = t
  · refine ⟨fun _ => ?_, fun hn => absurd (hht.trans htail.symm) hn⟩
    have hcond : uadd p (s.hdr h).size = s.brk := by
      unfold uadd; rw [hht] at hp ⊢; omega
    have hunl : ∃ s0, (if s.head = s.tail then some { s with head := 0, tail := 0 }
          else free_loop fuel s s.head) = some s0 ∧ s0.brk = s.brk ∧ s0.base = s.base ∧
          s0.limit = s.limit ∧ (s0.hdr h).size = (s.hdr h).size := by
      by_cases hht2 : s.head = s.tail
      · exact ⟨_, if_pos hht2, rfl, rfl, rfl, rfl⟩
      · rw [if_neg hht2]
        have hchain := hwf.chain
        rw [hl] at hchain hf
        rcases List.eq_nil_or_concat pre with hpre | ⟨pre1, q, hpre⟩
        · subst hpre
          exact absurd (hchain.1.trans htail.symm) hht2
        · rw [List.concat_eq_append] at hpre
          subst hpre
          have hchain1 : ChainFrom s.hdr s.head (pre1 ++ [q, t]) := by
            simpa using hchain
          have hlen : (pre1 ++ [q, t]).length ≤ fuel := by
            simp only [List.length_append, List.length_cons, List.length_nil] at hf ⊢
            omega
          refine ⟨_, free_loop_unlink q t pre1 s s.head fuel hchain1 htail hnotin hlen, rfl,
            rfl, rfl, ?_⟩
          show (setNext s.hdr q 0 h).size = (s.hdr h).size
          unfold setNext
          split <;> rfl
    obtain ⟨s0, hs0, hb0, hbase0, hlim0, hsz0⟩ := hunl
    have harg : toIntptr (usub (usub 0 (s0.hdr h).size) sizeof_header_t) =
        -(((sizeof_header_t + (s.hdr h).size : Nat)) : Int) := by
      rw [hsz0]
      unfold toIntptr usub
      have e1 : ((0 + 2 ^ 64 - (s.hdr h).size % 2 ^ 64) % 2 ^ 64 + 2 ^ 64 -
          sizeof_header_t % 2 ^ 64) % 2 ^ 64 = 2 ^ 64 - (sizeof_header_t + (s.hdr h).size) := by
        omega
      rw [e1]
      have e2 : ¬ (2 ^ 64 - (sizeof_header_t + (s.hdr h).size) < 2 ^ 63) := by omega
      rw [if_neg e2]
      omega
    refine ⟨(sbrk s0 (toIntptr (usub (usub 0 (s0.hdr h).size) sizeof_header_t))).2, ?_, ?_⟩
    · simp only [free, hp0, hh, hb, hcond, if_false, if_true, hs0]
    · rw [harg, ← hb0]
      clear harg
      apply sbrk_shrink
      · omega
      · rw [hbase0, hb0]
        rw [hht] at hlow ⊢
        omega
      · rw [hlim0, hb0]
        omega
  · refine ⟨fun he => absurd (he.trans htail) hht, fun _ => ?_⟩
    have hin : h ∈ pre := by
      rw [hl] at hmem
      rcases List.mem_append.mp hmem with hm | hm
      · exact hm
      · exact absurd (by simpa using hm) hht
    have hle := hbefore h hin
    have hcond : uadd p (s.hdr h).size ≠ s.brk := by
      unfold uadd; omega
    refine ⟨{ s with hdr := setFree s.hdr h 1 }, ?_, rfl⟩
    simp only [free, hp0, hh, hb, hcond, if_false]

/-- An instance of `free_break_wf`: releasing the tail block 4200 of `threeBlocks` lowers the
break by 40, releasing the middle block 4160 leaves it alone. -/
theorem free_break_wf_example :
    (∃ s1, free 4 threeBlocks 4200 = some s1 ∧ s1.brk + (sizeof_header_t + 16) = threeBlocks.brk) ∧
      ∃ s1, free 4 threeBlocks 4160 = some s1 ∧ s1.brk = threeBlocks.brk :=
  ⟨(free_break_wf threeBlocks [4096, 4136, 4176] 4 4200 wf_threeBlocks (by decide)
      ⟨4176, by decide, by decide, by decide, by decide⟩).1 (by decide),
    (free_break_wf threeBlocks [4096, 4136, 4176] 4 4160 wf_threeBlocks (by decide)
      ⟨4136, by decide, by decide, by decide, by decide⟩).2 (by decide)⟩

/-! ## C11 -/

theorem malloc_null_unchanged (s s1 : State) (l : List Nat) (fuel size : Nat)
    (hc : ChainFrom s.hdr s.head l) (hf : l.length < fuel)
    (hb : s.brk + sizeof_header_t < 2 ^ 64) (hl : ∀ h ∈ l, h + sizeof_header_t < 2 ^ 64)
    (hm : malloc fuel s size = some (0, s1)) : s1 = s := by
  obtain ⟨p, s2, hm2, _, hsame⟩ := malloc_result s l fuel size hc hf hb hl
  rw [hm] at hm2
  injection hm2 with hm2
  injection hm2 with e1 e2
  subst e2
  exact hsame e1.symm

/-- C11: in a state with a well-formed chain `l` (headers and break at least
`sizeof(header_t)` below the top of the address space), for a live block `p` and a size `sz`
larger than `size(p)`: if the inner `malloc(sz)` returns `NULL`, then `realloc(p, sz)` returns
`NULL` and the state after the call is the state before it, so the header of `p` is still in
the chain with `is_free == 0` and its size, and the payload bytes and the break are as they
were. -/
theorem realloc_failure_keeps_state (s s1 : State) (l : List Nat) (fuel p sz : Nat)
    (hc : ChainFrom s.hdr s.head l) (hf : l.length < fuel)
    (hb : s.brk + sizeof_header_t < 2 ^ 64) (hl : ∀ h ∈ l, h + sizeof_header_t < 2 ^ 64)
    (hlive : Live s l p) (hsz : (s.hdr (usub p sizeof_header_t)).size < sz)
    (hfail : malloc fuel s sz = some (0, s1)) :
    realloc fuel s p sz = some (0, s) ∧ Live s l p := by
  have hH := sizeof_header_t_eq
  have hs1 : s1 = s := malloc_null_unchanged s s1 l fuel sz hc hf hb hl hfail
  subst hs1
  refine ⟨?_, hlive⟩
  obtain ⟨h, _, hp, _, _⟩ := hlive
  have h0 : ¬ (p = 0 ∨ sz = 0) := by
    rintro (e | e) <;> omega
  have h1 : ¬ ((s1.hdr (usub p sizeof_header_t)).size ≥ sz) := by omega
  simp only [realloc, h0, h1, hfail, if_false, ne_eq, not_true_eq_false]

/-- Witness for C11: in `tight`, where the break cannot move, `realloc(4120, 16)` on the
live block of 8 bytes fails and leaves the state alone. -/
theorem realloc_failure_keeps_state_witness :
    ChainFrom tight.hdr tight.head [4096] ∧ [4096].length < 2 ∧
      tight.brk + sizeof_header_t < 2 ^ 64 ∧ (∀ h ∈ [4096], h + sizeof_header_t < 2 ^ 64) ∧
      Live tight [4096] 4120 ∧ (tight.hdr (usub 4120 sizeof_header_t)).size < 16 ∧
      malloc 2 tight 16 = some (0, tight) ∧
      (realloc 2 tight 4120 16 = some (0, tight) ∧ Live tight [4096] 4120) :=
  have hm : malloc 2 tight 16 = some (0, tight) := by
    have e := eq_some_stateOf (malloc 2 tight 16) 0 tight (by decide)
    rw [e]
    exact congrArg (fun t => some (0, t))
      (malloc_null_unchanged tight _ [4096] 2 16 (by decide) (by decide) (by decide)
        (by decide) e)
  ⟨by decide, by decide, by decide, by decide, ⟨4096, by decide, by decide, by decide, by decide⟩,
    by decide, hm,
    realloc_failure_keeps_state tight tight [4096] 2 4120 16 (by decide) (by decide) (by decide)
      (by decide) ⟨4096, by decide, by decide, by decide, by decide⟩ (by decide) hm⟩

/-! ## Further reachable states -/

theorem reachable_looped : Reachable looped :=
  Reachable.malloc 3 8 4152 reachable_wrapped (by decide) (eq_some_stateOf _ _ _ (by decide))

theorem livePtr_wrapped_A : LivePtr wrapped 4120 :=
  ⟨[4096, 4128], by decide, 4096, by decide, by decide, by decide, by decide⟩

theorem livePtr_wrapped_B : LivePtr wrapped 4152 :=
  ⟨[4096, 4128], by decide, 4128, by decide, by decide, by decide, by decide⟩

theorem reachable_shrunk : Reachable shrunk :=
  Reachable.free 3 4120 reachable_wrapped (Or.inr livePtr_wrapped_A)
    (eq_some_getD _ _ (by decide))

theorem reachable_threeSmall : Reachable threeSmall :=
  Reachable.malloc 3 8 4184
    (Reachable.malloc 2 8 4152
      (Reachable.malloc 1 8 4120 reachable_fresh (by decide) (eq_some_stateOf _ _ _ (by decide)))
      (by decide) (eq_some_stateOf _ _ _ (by decide)))
    (by decide) (eq_some_stateOf _ _ _ (by decide))

theorem reachable_twoFreed : Reachable twoFreed :=
  Reachable.free 4 4152
    (Reachable.free 4 4120 reachable_threeSmall
      (Or.inr ⟨[4096, 4128, 4160], by decide, 4096, by decide, by decide, by decide, by decide⟩)
      (eq_some_getD _ _ (by decide)))
    (Or.inr ⟨[4096, 4128, 4160], by decide, 4128, by decide, by decide, by decide, by decide⟩)
    (eq_some_getD _ _ (by decide))

theorem reachable_lowered : Reachable lowered :=
  Reachable.malloc 5 (2 ^ 64 - 88) 4216 reachable_twoFreed (by decide)
    (eq_some_stateOf _ _ _ (by decide))

/-- The concrete contents of `looped`: the header 4128 is its own successor. -/
theorem looped_shape :
    (looped.head, looped.tail, looped.brk) = (4096, 4128, 4160) ∧
      ((looped.hdr 4096).size, (looped.hdr 4096).is_free, (looped.hdr 4096).next) =
        (8, 0, 4128) ∧
      ((looped.hdr 4128).size, (looped.hdr 4128).is_free, (looped.hdr 4128).next) =
        (8, 0, 4128) := by
  decide

/-- The concrete contents of `shrunk`. -/
theorem shrunk_shape :
    (shrunk.head, shrunk.tail, shrunk.brk) = (4096, 4096, 4096) ∧
      ((shrunk.hdr 4096).size, (shrunk.hdr 4096).is_free, (shrunk.hdr 4096).next) =
        (8, 0, 0) := by
  decide

/-- The concrete contents of `twoFreed` and `lowered`. -/
theorem lowered_shape :
    (twoFreed.head, twoFreed.tail, twoFreed.brk) = (4096, 4160, 4192) ∧
      ((twoFreed.hdr 4096).size, (twoFreed.hdr 4096).is_free, (twoFreed.hdr 4096).next) =
        (8, 1, 4128) ∧
      ((twoFreed.hdr 4128).size, (twoFreed.hdr 4128).is_free, (twoFreed.hdr 4128).next) =
        (8, 1, 4160) ∧
      ((twoFreed.hdr 4160).size, (twoFreed.hdr 4160).is_free, (twoFreed.hdr 4160).next) =
        (8, 0, 0) ∧
      (lowered.head, lowered.tail, lowered.brk) = (4096, 4192, 4128) ∧
      ((lowered.hdr 4160).size, (lowered.hdr 4160).is_free, (lowered.hdr 4160).next) =
        (8, 0, 4192) ∧
      ((lowered.hdr 4192).size, (lowered.hdr 4192).is_free, (lowered.hdr 4192).next) =
        (2 ^ 64 - 88, 0, 0) := by
  decide

/-! ## C12 -/

/-- C12 fails on the code. From the empty chain of `fresh` (break 4096) the sizes `a = 8`,
`b = 2^64 - 24`, `c = 8` make all three `sbrk` calls succeed and all three `malloc` calls
return non-null pointers: `A = 4120`, `B = 4152`, `C = 4152`. For `B` the sum
`sizeof(header_t) + b` wraps to 0 and `sbrk(0)` leaves the break at 4128, so the header of `C`
is written at 4128, on top of the header of `B`: the header addresses 4096, 4128, 4128 are not
strictly increasing, and the final break 4160 is not `4096 + 3 * 24 + a + b + c`. -/
theorem three_mallocs_share_a_header :
    (fresh.head, fresh.tail, fresh.brk) = (0, 0, 4096) ∧
      (sbrk fresh (toIntptr (uadd sizeof_header_t 8))).1 ≠ 2 ^ 64 - 1 ∧
      (sbrk oneBlock (toIntptr (uadd sizeof_header_t (2 ^ 64 - 24)))).1 ≠ 2 ^ 64 - 1 ∧
      (sbrk wrapped (toIntptr (uadd sizeof_header_t 8))).1 ≠ 2 ^ 64 - 1 ∧
      (malloc 1 fresh 8).map (fun r => (r.1, usub r.1 sizeof_header_t, r.2.brk)) =
        some (4120, 4096, 4128) ∧
      (malloc 2 oneBlock (2 ^ 64 - 24)).map (fun r => (r.1, usub r.1 sizeof_header_t, r.2.brk)) =
        some (4152, 4128, 4128) ∧
      (malloc 3 wrapped 8).map (fun r => (r.1, usub r.1 sizeof_header_t, r.2.brk)) =
        some (4152, 4128, 4160) ∧
      4160 ≠ 4096 + 3 * sizeof_header_t + 8 + (2 ^ 64 - 24) + 8 := by
  decide

/-! ## C13 -/

/-- C13 fails on the code. From `fresh`, with `a = 8`, `b = 2^64 - 24`, `c = 8`:
`A = malloc(a) = 4120`, `B = malloc(b) = 4152` (state `wrapped`, break 4128), then `free(A)`
(state `shrunk`: the tail, which is the header of `B`, is unlinked and the break drops to
4096), then `C = malloc(c)` returns 4120. `C` equals `A`, but the header 4128 of `B` is no
longer in the chain: the chain from `head` is the header 4096 followed by itself. -/
theorem reuse_scenario_drops_second_block :
    (malloc 1 fresh 8).map (fun r => r.1) = some 4120 ∧
      (malloc 2 oneBlock (2 ^ 64 - 24)).map (fun r => r.1) = some 4152 ∧
      (free 3 wrapped 4120).map (fun t => (t.head, t.tail, t.brk)) = some (4096, 4096, 4096) ∧
      (malloc 3 shrunk 8).map
          (fun r => (r.1, r.2.head, r.2.tail, (r.2.hdr 4096).next, r.2.brk,
            decide (ChainFrom r.2.hdr r.2.head [4096, 4128]))) =
        some (4120, 4096, 4096, 4096, 4128, false) := by
  decide

/-! ## C14 -/

/-- C14 fails on the code. The state `wrapped` is reachable, none of its headers is free, and
`sbrk` grants the 32 bytes of `malloc(8)`. `A = malloc(8)` returns 4152 and `free(A)` then
leaves `tail = 4096` and `4096->next = NULL`, whereas before the two calls `tail` was 4128 and
`4096->next` was 4128: the header 4128 of the live block `B` has left the chain. -/
theorem malloc_free_round_trip_loses_tail :
    Reachable wrapped ∧ ChainFrom wrapped.hdr wrapped.head [4096, 4128] ∧
      (∀ h ∈ [4096, 4128], ¬ fits wrapped 8 h) ∧
      (sbrk wrapped (toIntptr (uadd sizeof_header_t 8))).1 ≠ 2 ^ 64 - 1 ∧
      (wrapped.head, wrapped.tail, (wrapped.hdr 4096).next, wrapped.brk) =
        (4096, 4128, 4128, 4128) ∧
      (malloc 3 wrapped 8).map (fun r => r.1) = some 4152 ∧
      ((malloc 3 wrapped 8).bind (fun r => free 3 r.2 r.1)).map
          (fun t => (t.head, t.tail, (t.hdr 4096).next, t.brk)) =
        some (4096, 4096, 0, 4128) :=
  ⟨reachable_wrapped, by decide, by decide, by decide, by decide, by decide, by decide⟩

/-! ## C16 -/

/-- C16 fails on the code. In the reachable state `wrapped` the block `B = 4152` is live
(header 4128, `is_free == 0`), and `malloc(8)` returns 4152: a pointer equal to a block in
use. -/
theorem malloc_returns_live_pointer :
    Reachable wrapped ∧ LivePtr wrapped 4152 ∧
      ((wrapped.hdr 4128).is_free, (wrapped.hdr 4128).size) = (0, 2 ^ 64 - 24) ∧
      (malloc 3 wrapped 8).map (fun r => (r.1, (r.2.hdr 4128).is_free)) = some (4152, 0) :=
  ⟨reachable_wrapped, livePtr_wrapped_B, by decide, by decide⟩

/-! ## C17 -/

theorem looped_scan_diverges :
    ∀ fuel : Nat, get_free_block_loop looped 16 fuel 4128 = none := by
  intro fuel
  induction fuel with
  | zero => rfl
  | succ f ih =>
    have h0 : ¬ ((4128 : Nat) = 0) := by decide
    have h1 : ¬ ((looped.hdr 4128).is_free ≠ 0 ∧ (looped.hdr 4128).size ≥ 16) := by decide
    have h2 : (looped.hdr 4128).next = 4128 := by decide
    rw [get_free_block_loop, if_neg h0, if_neg h1, h2]
    exact ih

/-- C17 fails on the code. In the reachable state `looped` the chain from `head` is 4096,
4128, 4128, ...: the header 4128 is its own successor, so the addresses are not strictly
increasing, the chain is cyclic, and the scan of `get_free_block(16)` does not terminate
(it exhausts every amount of fuel). -/
theorem chain_order_broken :
    Reachable looped ∧ looped.head = 4096 ∧ (looped.hdr 4096).next = 4128 ∧
      (looped.hdr 4128).next = 4128 ∧ ¬ (4128 < (looped.hdr 4128).next) ∧
      ∀ fuel : Nat, get_free_block fuel looped 16 = none := by
  refine ⟨reachable_looped, by decide, by decide, by decide, by decide, ?_⟩
  intro fuel
  cases fuel with
  | zero => rfl
  | succ f =>
    have h0 : ¬ (looped.head = 0) := by decide
    have h1 : ¬ ((looped.hdr looped.head).is_free ≠ 0 ∧ (looped.hdr looped.head).size ≥ 16) := by
      decide
    have h2 : (looped.hdr looped.head).next = 4128 := by decide
    rw [get_free_block, get_free_block_loop, if_neg h0, if_neg h1, h2]
    exact looped_scan_diverges f

/-! ## C18 -/

/-- C18 fails on the code. In the reachable state `shrunk` (after `A = malloc(8)`,
`B = malloc(2^64 - 24)`, `free(A)`) the chain is not empty, `tail` is the header 4096 with
size 8, and `tail + sizeof(header_t) + tail->size` is 4128 while the break is 4096. -/
theorem tail_end_differs_from_break :
    Reachable shrunk ∧ shrunk.head = 4096 ∧ shrunk.tail = 4096 ∧
      ChainFrom shrunk.hdr shrunk.head [4096] ∧
      shrunk.tail + sizeof_header_t + (shrunk.hdr shrunk.tail).size = 4128 ∧
      shrunk.brk = 4096 :=
  ⟨reachable_shrunk, by decide, by decide, by decide, by decide, by decide⟩

/-! ## C19 -/

/-- C19 fails on the code. In the reachable state `wrapped` the chain is 4096, 4128 and the
live block `p = 4120` has the header 4096. `free(p)` takes the shrink branch, because
`p + size(p)` is the break 4128, and the header it unlinks is the tail 4128, not the header
of `p`: afterwards the chain consists of the header 4096 alone, still marked in use, and the
break is 4096. -/
theorem free_unlinks_another_header :
    Reachable wrapped ∧ LivePtr wrapped 4120 ∧
      ChainFrom wrapped.hdr wrapped.head [4096, 4128] ∧
      usub 4120 sizeof_header_t = 4096 ∧
      uadd 4120 (wrapped.hdr 4096).size = (sbrk wrapped 0).1 ∧
      (free 3 wrapped 4120).map
          (fun t => (decide (ChainFrom t.hdr t.head [4096]), t.tail, (t.hdr 4096).is_free, t.brk)) =
        some (true, 4096, 0, 4096) :=
  ⟨reachable_wrapped, livePtr_wrapped_A, by decide, by decide, by decide, by decide⟩

/-! ## C20 -/

/-- C20 fails on the code. In `threeSmall` the adjacent blocks `X = 4120` and `Y = 4152`, of
8 bytes each, are not the last block (the tail is the header 4160 of `Z`, the break 4192);
`free(X)` and `free(Y)` mark them free (state `twoFreed`). Then `malloc(2^64 - 88)` passes
`-64` to `sbrk` and the break drops to 4128, the header of `Y` (state `lowered`), and the next
`malloc(16)`, which no free header fits, gets 4128 from `sbrk`, writes a header of size 16
there and returns 4152: the block `Y` is handed out for a request of 16 bytes, larger than
`max(8, 8)`. -/
theorem freed_block_returned_for_larger_request :
    Reachable lowered ∧
      ChainFrom threeSmall.hdr threeSmall.head [4096, 4128, 4160] ∧
      Live threeSmall [4096, 4128, 4160] 4120 ∧ Live threeSmall [4096, 4128, 4160] 4152 ∧
      (threeSmall.tail, threeSmall.brk) = (4160, 4192) ∧
      4096 + sizeof_header_t + (threeSmall.hdr 4096).size = 4128 ∧
      ((threeSmall.hdr 4096).size, (threeSmall.hdr 4128).size) = (8, 8) ∧
      ((twoFreed.hdr 4096).is_free, (twoFreed.hdr 4128).is_free) = (1, 1) ∧
      (malloc 5 twoFreed (2 ^ 64 - 88)).map (fun r => (r.1, r.2.brk)) = some (4216, 4128) ∧
      (malloc 5 lowered 16).map (fun r => (r.1, (r.2.hdr 4128).size, (r.2.hdr 4128).is_free)) =
        some (4152, 16, 0) :=
  ⟨reachable_lowered, by decide, ⟨4096, by decide, by decide, by decide, by decide⟩,
    ⟨4128, by decide, by decide, by decide, by decide⟩, by decide, by decide, by decide,
    by decide, by decide, by decide⟩

/-! ## C15 -/

theorem Tiled.pairwise (hdr : Nat → Header) :
    ∀ (l : List Nat) (e : Nat), Tiled hdr e l → l.Pairwise (fun a b => a < b) := by
  intro l
  induction l using List.reverseRecOn with
  | nil => intro _ _; exact List.Pairwise.nil
  | append_singleton pre t ih =>
    intro e ht
    have hH := sizeof_header_t_eq
    obtain ⟨_, hpre, hbefore⟩ := Tiled.split_last hdr e t pre ht
    rw [List.pairwise_append]
    refine ⟨ih t hpre, List.pairwise_singleton _ _, ?_⟩
    intro a ha b hb
    have hbt : b = t := by simpa using hb
    subst hbt
    have := hbefore a ha
    omega

theorem tiled_congr (hdr hdr1 : Nat → Header) (e : Nat) :
    ∀ l : List Nat, (∀ x ∈ l, (hdr1 x).size = (hdr x).size) → Tiled hdr e l → Tiled hdr1 e l := by
  intro l
  induction l with
  | nil => intro _ _; trivial
  | cons x xs ih =>
    intro hsz ht
    cases xs with
    | nil =>
      show x + sizeof_header_t + (hdr1 x).size = e
      rw [hsz x (by simp)]
      exact ht
    | cons y ys =>
      obtain ⟨hxy, hrest⟩ := ht
      refine ⟨?_, ih (fun z hz => hsz z (List.mem_cons_of_mem _ hz)) hrest⟩
      rw [hsz x (by simp)]
      exact hxy

/-- In a well-formed state the headers of the chain have strictly increasing addresses. -/
theorem WF.increasing (s : State) (l : List Nat) (hwf : WF s l) :
    l.Pairwise (fun a b => a < b) :=
  Tiled.pairwise s.hdr l s.brk hwf.tiled

/-- In a well-formed state with a non-empty chain the block of the tail ends at the break,
and `head` is `NULL` exactly when `tail` is. -/
theorem WF.tail_at_break (s : State) (l : List Nat) (hwf : WF s l) :
    (l ≠ [] → s.tail + sizeof_header_t + (s.hdr s.tail).size = s.brk) ∧
      (s.head = 0 ↔ s.tail = 0) := by
  rcases List.eq_nil_or_concat l with hl | ⟨pre, t, hl⟩
  · subst hl
    have h1 : s.head = 0 := hwf.chain
    have h2 : s.tail = 0 := hwf.tail_last
    exact ⟨fun h => absurd rfl h, by rw [h1, h2]⟩
  · rw [List.concat_eq_append] at hl
    subst hl
    have htail : s.tail = t := by rw [hwf.tail_last]; simp
    obtain ⟨hend, _, _⟩ := Tiled.split_last s.hdr s.brk t pre hwf.tiled
    have ht0 : t ≠ 0 := ChainFrom.ne_zero s.hdr _ s.head hwf.chain t (by simp)
    have hh0 : s.head ≠ 0 := by
      have hc := hwf.chain
      cases pre with
      | nil => rw [hc.1]; exact ht0
      | cons x xs => rw [hc.1]; exact hc.2.1
    refine ⟨fun _ => by rw [htail]; exact hend, ?_⟩
    rw [htail]
    exact ⟨fun h => absurd h hh0, fun h => absurd h ht0⟩

/-! ## Well-formedness is preserved -/

theorem setNext_size (hdr : Nat → Header) (h v a : Nat) :
    (setNext hdr h v a).size = (hdr a).size := by
  unfold setNext; split <;> rfl

theorem setNext_is_free (hdr : Nat → Header) (h v a : Nat) :
    (setNext hdr h v a).is_free = (hdr a).is_free := by
  unfold setNext; split <;> rfl

theorem setNext_next_same (hdr : Nat → Header) (h v : Nat) : (setNext hdr h v h).next = v := by
  unfold setNext; rw [if_pos rfl]

theorem setNext_next_other (hdr : Nat → Header) (h v a : Nat) (hne : a ≠ h) :
    (setNext hdr h v a).next = (hdr a).next := by
  unfold setNext; rw [if_neg hne]

theorem setFree_size (hdr : Nat → Header) (h v a : Nat) :
    (setFree hdr h v a).size = (hdr a).size := by
  unfold setFree; split <;> rfl

theorem setFree_next (hdr : Nat → Header) (h v a : Nat) :
    (setFree hdr h v a).next = (hdr a).next := by
  unfold setFree; split <;> rfl

theorem setFree_is_free_same (hdr : Nat → Header) (h v : Nat) :
    (setFree hdr h v h).is_free = v := by
  unfold setFree; rw [if_pos rfl]

theorem setFree_is_free_other (hdr : Nat → Header) (h v a : Nat) (hne : a ≠ h) :
    (setFree hdr h v a).is_free = (hdr a).is_free := by
  unfold setFree; rw [if_neg hne]

theorem setSize_next (hdr : Nat → Header) (h v a : Nat) :
    (setSize hdr h v a).next = (hdr a).next := by
  unfold setSize; split <;> rfl

theorem setSize_is_free (hdr : Nat → Header) (h v a : Nat) :
    (setSize hdr h v a).is_free = (hdr a).is_free := by
  unfold setSize; split <;> rfl

theorem setSize_size_same (hdr : Nat → Header) (h v : Nat) : (setSize hdr h v h).size = v := by
  unfold setSize; rw [if_pos rfl]

theorem setSize_size_other (hdr : Nat → Header) (h v a : Nat) (hne : a ≠ h) :
    (setSize hdr h v a).size = (hdr a).size := by
  unfold setSize; rw [if_neg hne]

theorem chain_congr (hdr hdr1 : Nat → Header) :
    ∀ (l : List Nat) (a : Nat), (∀ x ∈ l, (hdr1 x).next = (hdr x).next) →
      ChainFrom hdr a l → ChainFrom hdr1 a l := by
  intro l
  induction l with
  | nil => intro a _ hc; exact hc
  | cons x xs ih =>
    intro a hn hc
    obtain ⟨hax, hx0, hrest⟩ := hc
    refine ⟨hax, hx0, ?_⟩
    rw [hn x (by simp)]
    exact ih _ (fun y hy => hn y (List.mem_cons_of_mem _ hy)) hrest

/-- Appending the header `b` to a chain that ends in `t`: the new memory keeps the successor
of every earlier header, makes `b` the successor of `t`, and `b` the last header. -/
theorem chain_snoc (hdr hdr1 : Nat → Header) (t b : Nat) (hb0 : b ≠ 0)
    (htb : (hdr1 t).next = b) (hbn : (hdr1 b).next = 0) :
    ∀ (pre : List Nat) (a : Nat), (∀ x ∈ pre, (hdr1 x).next = (hdr x).next) →
      ChainFrom hdr a (pre ++ [t]) → ChainFrom hdr1 a (pre ++ [t, b]) := by
  intro pre
  induction pre with
  | nil =>
    intro a _ hc
    obtain ⟨hat, ht0, _⟩ := hc
    exact ⟨hat, ht0, htb, hb0, hbn⟩
  | cons x xs ih =>
    intro a hn hc
    obtain ⟨hax, hx0, hrest⟩ := hc
    refine ⟨hax, hx0, ?_⟩
    rw [hn x (by simp)]
    exact ih _ (fun y hy => hn y (List.mem_cons_of_mem _ hy)) hrest

/-- Dropping the last header `t` of a chain: the new memory keeps the successor of every
header before `q` and makes `q` the last header. -/
theorem ChainFrom.dropTail (hdr hdr1 : Nat → Header) (q t : Nat) (hqn : (hdr1 q).next = 0) :
    ∀ (pre : List Nat) (a : Nat), (∀ x ∈ pre, (hdr1 x).next = (hdr x).next) →
      ChainFrom hdr a (pre ++ [q, t]) → ChainFrom hdr1 a (pre ++ [q]) := by
  intro pre
  induction pre with
  | nil =>
    intro a _ hc
    obtain ⟨haq, hq0, _⟩ := hc
    exact ⟨haq, hq0, hqn⟩
  | cons x xs ih =>
    intro a hn hc
    obtain ⟨hax, hx0, hrest⟩ := hc
    refine ⟨hax, hx0, ?_⟩
    rw [hn x (by simp)]
    exact ih _ (fun y hy => hn y (List.mem_cons_of_mem _ hy)) hrest

theorem tiled_snoc (hdr hdr1 : Nat → Header) (b e1 : Nat)
    (hbe : b + sizeof_header_t + (hdr1 b).size = e1) :
    ∀ l : List Nat, (∀ x ∈ l, (hdr1 x).size = (hdr x).size) → Tiled hdr b l →
      Tiled hdr1 e1 (l ++ [b]) := by
  intro l
  induction l with
  | nil => intro _ _; exact hbe
  | cons x xs ih =>
    intro hsz ht
    cases xs with
    | nil =>
      refine ⟨?_, hbe⟩
      rw [hsz x (by simp)]
      exact ht
    | cons y ys =>
      obtain ⟨hxy, hrest⟩ := ht
      refine ⟨?_, ih (fun z hz => hsz z (List.mem_cons_of_mem _ hz)) hrest⟩
      rw [hsz x (by simp)]
      exact hxy

theorem sbrk_grow_eq (s : State) (n : Nat) (hn : 0 < n) (h63 : n < 2 ^ 63)
    (hb : s.base ≤ s.brk) (hl : s.brk + n ≤ s.limit) :
    sbrk s (toIntptr n) = (s.brk, { s with brk := s.brk + n }) := by
  have hi : toIntptr n = (n : Int) := by unfold toIntptr; rw [if_pos h63]
  rw [hi]
  unfold sbrk
  have h0 : ¬ ((n : Int) = 0) := by omega
  have h1 : (s.base : Int) ≤ (s.brk : Int) + (n : Int) ∧ (s.brk : Int) + (n : Int) ≤ (s.limit : Int) := by
    constructor <;> omega
  have h2 : ((s.brk : Int) + (n : Int)).toNat = s.brk + n := by omega
  rw [if_neg h0, if_pos h1, h2]

/-- Reusing a header keeps the state well-formed. -/
theorem wf_setFree (s : State) (l : List Nat) (h v : Nat) (hwf : WF s l) :
    WF { s with hdr := setFree s.hdr h v } l :=
  { chain := chain_congr s.hdr _ l s.head (fun x _ => setFree_next s.hdr h v x) hwf.chain
    tail_last := hwf.tail_last
    tiled := tiled_congr s.hdr _ s.brk l (fun x _ => setFree_size s.hdr h v x) hwf.tiled
    lower := hwf.lower
    small := fun x hx => by
      show sizeof_header_t + (setFree s.hdr h v x).size < 2 ^ 63
      rw [setFree_size]
      exact hwf.small x hx
    base_pos := hwf.base_pos
    base_le := hwf.base_le
    brk_le := hwf.brk_le
    limit_lt := hwf.limit_lt }

/-- The state `malloc` builds when it appends a header of the given size at the break `b` of
`s` (lines 119 to 127), the break having moved up by `sizeof(header_t) + size`. -/
theorem wf_append (s : State) (l : List Nat) (size : Nat) (hwf : WF s l)
    (h63 : sizeof_header_t + size < 2 ^ 63)
    (hlim : s.brk + (sizeof_header_t + size) ≤ s.limit) :
    WF { s with
          brk := s.brk + (sizeof_header_t + size)
          head := if s.head = 0 then s.brk else s.head
          tail := s.brk
          hdr :=
            if s.tail ≠ 0 then
              setNext (setNext (setFree (setSize s.hdr s.brk size) s.brk 0) s.brk 0) s.tail s.brk
            else setNext (setFree (setSize s.hdr s.brk size) s.brk 0) s.brk 0 }
      (l ++ [s.brk]) := by
  have hH := sizeof_header_t_eq
  have hbp := hwf.base_pos
  have hbl := hwf.base_le
  have hb0 : s.brk ≠ 0 := by omega
  have hlt : ∀ x ∈ l, x < s.brk := by
    intro x hx
    have := Tiled.block_le s.hdr s.brk l hwf.tiled x hx
    omega
  have hne : ∀ x ∈ l, x ≠ s.brk := fun x hx => by have := hlt x hx; omega
  rcases List.eq_nil_or_concat l with hl | ⟨pre, t, hl⟩
  · subst hl
    have h1 : s.head = 0 := hwf.chain
    have h2 : s.tail = 0 := hwf.tail_last
    have h3 : ¬ (s.tail ≠ 0) := by rw [h2]; simp
    simp only [h1, h3, if_true, if_false, List.nil_append]
    refine ⟨⟨rfl, hb0, ?_⟩, rfl, ?_, ?_, ?_, hbp, ?_, hlim, hwf.limit_lt⟩
    · show (setNext (setFree (setSize s.hdr s.brk size) s.brk 0) s.brk 0 s.brk).next = 0
      rw [setNext_next_same]
    · show s.brk + sizeof_header_t +
        (setNext (setFree (setSize s.hdr s.brk size) s.brk 0) s.brk 0 s.brk).size =
          s.brk + (sizeof_header_t + size)
      rw [setNext_size, setFree_size, setSize_size_same]
      omega
    · intro x hx
      have : x = s.brk := by simpa using hx
      subst this
      exact hbl
    · intro x hx
      have : x = s.brk := by simpa using hx
      subst this
      show sizeof_header_t +
        (setNext (setFree (setSize s.hdr s.brk size) s.brk 0) s.brk 0 s.brk).size < 2 ^ 63
      rw [setNext_size, setFree_size, setSize_size_same]
      exact h63
    · show s.base ≤ s.brk + (sizeof_header_t + size)
      omega
  · rw [List.concat_eq_append] at hl
    subst hl
    have htail : s.tail = t := by rw [hwf.tail_last]; simp
    have ht0 : t ≠ 0 := ChainFrom.ne_zero s.hdr _ s.head hwf.chain t (by simp)
    have hh0 : s.head ≠ 0 := by
      have hc := hwf.chain
      cases pre with
      | nil => rw [hc.1]; exact ht0
      | cons x xs => rw [hc.1]; exact hc.2.1
    have htb : t ≠ s.brk := hne t (by simp)
    obtain ⟨_, _, hbefore⟩ := Tiled.split_last s.hdr s.brk t pre hwf.tiled
    have hpt : ∀ x ∈ pre, x ≠ t := fun x hx => by have := hbefore x hx; omega
    have h3 : s.tail ≠ 0 := by rw [htail]; exact ht0
    simp only [hh0, h3, if_true, if_false, ne_eq, not_false_eq_true]
    rw [htail]
    have hsize : ∀ x ∈ pre ++ [t],
        (setNext (setNext (setFree (setSize s.hdr s.brk size) s.brk 0) s.brk 0) t s.brk x).size =
          (s.hdr x).size := by
      intro x hx
      rw [setNext_size, setNext_size, setFree_size, setSize_size_other _ _ _ _ (hne x hx)]
    have hsizeb :
        (setNext (setNext (setFree (setSize s.hdr s.brk size) s.brk 0) s.brk 0) t s.brk s.brk).size =
          size := by
      rw [setNext_size, setNext_size, setFree_size, setSize_size_same]
    refine ⟨?_, ?_, ?_, ?_, ?_, hbp, ?_, hlim, hwf.limit_lt⟩
    · have hc : ChainFrom _ s.head (pre ++ [t, s.brk]) :=
        chain_snoc s.hdr
          (setNext (setNext (setFree (setSize s.hdr s.brk size) s.brk 0) s.brk 0) t s.brk)
          t s.brk hb0 (setNext_next_same _ _ _)
          (by rw [setNext_next_other _ _ _ _ (Ne.symm htb), setNext_next_same])
          pre s.head
          (fun x hx => by
            rw [setNext_next_other _ _ _ _ (hpt x hx),
              setNext_next_other _ _ _ _ (hne x (List.mem_append_left _ hx)), setFree_next,
              setSize_next])
          hwf.chain
      simpa using hc
    · simp
    · have hbe : s.brk + sizeof_header_t +
          (setNext (setNext (setFree (setSize s.hdr s.brk size) s.brk 0) s.brk 0) t s.brk
            s.brk).size = s.brk + (sizeof_header_t + size) := by
        rw [hsizeb]; omega
      exact tiled_snoc s.hdr _ s.brk _ hbe (pre ++ [t]) hsize hwf.tiled
    · intro x hx
      rcases List.mem_append.mp hx with h | h
      · exact hwf.lower x h
      · have : x = s.brk := by simpa using h
        subst this
        exact hbl
    · intro x hx
      rcases List.mem_append.mp hx with h | h
      · show sizeof_header_t + (setNext (setNext (setFree (setSize s.hdr s.brk size) s.brk 0)
          s.brk 0) t s.brk x).size < 2 ^ 63
        rw [hsize x h]
        exact hwf.small x h
      · have : x = s.brk := by simpa using h
        subst this
        show sizeof_header_t + (setNext (setNext (setFree (setSize s.hdr s.brk size) s.brk 0)
          s.brk 0) t s.brk s.brk).size < 2 ^ 63
        rw [hsizeb]
        exact h63
    · show s.base ≤ s.brk + (sizeof_header_t + size)
      omega

/-- The outcome of `malloc(size)` in a well-formed state when `sizeof(header_t) + size` is
below `2^63`: `NULL` with the state untouched, or the first free header that fits with only
its `is_free` cleared, or a fresh header appended at the old break. -/
theorem malloc_outcome (s s1 : State) (l : List Nat) (fuel size p : Nat) (hwf : WF s l)
    (hf : l.length < fuel) (h63 : sizeof_header_t + size < 2 ^ 63)
    (hm : malloc fuel s size = some (p, s1)) :
    (p = 0 ∧ s1 = s) ∨
    (∃ h ∈ l, fits s size h ∧ p = h + sizeof_header_t ∧
      s1 = { s with hdr := setFree s.hdr h 0 }) ∨
    ((∀ h ∈ l, ¬ fits s size h) ∧ size ≠ 0 ∧ s.brk + (sizeof_header_t + size) ≤ s.limit ∧
      p = s.brk + sizeof_header_t ∧
      s1 = { s with
              brk := s.brk + (sizeof_header_t + size)
              head := if s.head = 0 then s.brk else s.head
              tail := s.brk
              hdr :=
                if s.tail ≠ 0 then
                  setNext (setNext (setFree (setSize s.hdr s.brk size) s.brk 0) s.brk 0)
                    s.tail s.brk
                else setNext (setFree (setSize s.hdr s.brk size) s.brk 0) s.brk 0 }) := by
  have hH := sizeof_header_t_eq
  have h2 := hwf.brk_le
  have h3 := hwf.limit_lt
  by_cases hs : size = 0
  · left
    simp only [malloc, hs, if_true] at hm
    injection hm with hm
    injection hm with e1 e2
    exact ⟨e1.symm, e2.symm⟩
  · obtain ⟨r, hr, hr1, hr2⟩ := get_free_block_loop_spec s size l s.head fuel hwf.chain hf
    have hg : get_free_block fuel s size = some r := hr
    by_cases hr0 : r = 0
    · have hnone := hr2.mp hr0
      subst hr0
      have hu : uadd sizeof_header_t size = sizeof_header_t + size := by unfold uadd; omega
      by_cases hlim : s.brk + (sizeof_header_t + size) ≤ s.limit
      · right; right
        have hsb := sbrk_grow_eq s (sizeof_header_t + size) (by omega) h63 hwf.base_le hlim
        have hne : ¬ (s.brk = 2 ^ 64 - 1) := by omega
        have hp : uadd s.brk sizeof_header_t = s.brk + sizeof_header_t := by unfold uadd; omega
        simp only [malloc, hs, hg, hu, hsb, hne, hp, if_false, ne_eq, not_true_eq_false] at hm
        injection hm with hm
        injection hm with e1 e2
        exact ⟨hnone, hs, hlim, e1.symm, e2.symm⟩
      · left
        have hsb := sbrk_refuse s (sizeof_header_t + size) (by omega) h63 (by omega)
        simp only [malloc, hs, hg, hu, hsb, if_false, if_true, ne_eq, not_true_eq_false] at hm
        injection hm with hm
        injection hm with e1 e2
        exact ⟨e1.symm, e2.symm⟩
    · obtain ⟨pre, post, hl, hfit, _⟩ := hr1 hr0
      have hmem : r ∈ l := by rw [hl]; simp
      have hb := Tiled.block_le s.hdr s.brk l hwf.tiled r hmem
      have hp : uadd r sizeof_header_t = r + sizeof_header_t := by unfold uadd; omega
      right; left
      simp only [malloc, hs, hg, hr0, hp, if_false, ne_eq, not_false_eq_true, if_true] at hm
      injection hm with hm
      injection hm with e1 e2
      exact ⟨r, hmem, hfit, e1.symm, e2.symm⟩

/-- A call of `malloc` whose total size `sizeof(header_t) + size` is below `2^63` takes a
well-formed state to a well-formed state; the chain is the old one, or the old one followed
by a header at the old break. -/
theorem malloc_wf (s s1 : State) (l : List Nat) (fuel size p : Nat) (hwf : WF s l)
    (hf : l.length < fuel) (h63 : sizeof_header_t + size < 2 ^ 63)
    (hm : malloc fuel s size = some (p, s1)) :
    (WF s1 l ∧ s1.brk = s.brk) ∨
      (WF s1 (l ++ [s.brk]) ∧ s1.brk = s.brk + (sizeof_header_t + size)) := by
  rcases malloc_outcome s s1 l fuel size p hwf hf h63 hm with
    ⟨_, e⟩ | ⟨h, _, _, _, e⟩ | ⟨_, _, hlim, _, e⟩
  · subst e
    exact Or.inl ⟨hwf, rfl⟩
  · subst e
    exact Or.inl ⟨wf_setFree s l h 0 hwf, rfl⟩
  · subst e
    exact Or.inr ⟨wf_append s l size hwf h63 hlim, rfl⟩

theorem sbrk_shrink_eq (s : State) (n : Nat) (hn : 0 < n) (hb : s.base + n ≤ s.brk)
    (hl : s.brk ≤ s.limit + n) :
    sbrk s (-(n : Int)) = (s.brk, { s with brk := s.brk - n }) := by
  unfold sbrk
  have h0 : ¬ (-(n : Int) = 0) := by omega
  have h1 : (s.base : Int) ≤ (s.brk : Int) + -(n : Int) ∧
      (s.brk : Int) + -(n : Int) ≤ (s.limit : Int) := by
    constructor <;> omega
  have h2 : ((s.brk : Int) + -(n : Int)).toNat = s.brk - n := by omega
  rw [if_neg h0, if_pos h1, h2]

/-- The argument `0 - header->s.size - sizeof(header_t)` of the `sbrk` call in `free`, as
`sbrk` receives it. -/
theorem free_sbrk_arg (size : Nat) (h : sizeof_header_t + size < 2 ^ 63) :
    toIntptr (usub (usub 0 size) sizeof_header_t) = -((sizeof_header_t + size : Nat) : Int) := by
  have hH := sizeof_header_t_eq
  unfold toIntptr usub
  have e1 : ((0 + 2 ^ 64 - size % 2 ^ 64) % 2 ^ 64 + 2 ^ 64 -
      sizeof_header_t % 2 ^ 64) % 2 ^ 64 = 2 ^ 64 - (sizeof_header_t + size) := by
    omega
  rw [e1]
  have e2 : ¬ (2 ^ 64 - (sizeof_header_t + size) < 2 ^ 63) := by omega
  rw [if_neg e2]
  omega

/-- The outcome of `free(p)` for a live block `p` with header `h` in a well-formed state: if
`h` is not the tail only its `is_free` is set; if `h` is the only header the chain becomes
empty; otherwise the predecessor `q` of `h` becomes the tail with `q->next = NULL`. In the
last two cases the break becomes `h`. -/
theorem free_outcome (s : State) (l : List Nat) (fuel p : Nat) (hwf : WF s l)
    (hf : l.length < fuel) (hlive : Live s l p) :
    ∃ h, h ∈ l ∧ p = h + sizeof_header_t ∧ usub p sizeof_header_t = h ∧
      ((h ≠ s.tail ∧ uadd p (s.hdr h).size ≠ s.brk ∧
          free fuel s p = some { s with hdr := setFree s.hdr h 1 }) ∨
        (h = s.tail ∧ l = [h] ∧ h + sizeof_header_t + (s.hdr h).size = s.brk ∧
          free fuel s p = some { s with head := 0, tail := 0, brk := h }) ∨
        (h = s.tail ∧ h + sizeof_header_t + (s.hdr h).size = s.brk ∧ ∃ pre q, l = pre ++ [q, h] ∧
          free fuel s p = some { s with hdr := setNext s.hdr q 0, tail := q, brk := h })) := by
  have hH := sizeof_header_t_eq
  obtain ⟨h, hmem, hp, hp64, _⟩ := hlive
  have hh : usub p sizeof_header_t = h := by unfold usub; omega
  refine ⟨h, hmem, hp, hh, ?_⟩
  have hp0 : p ≠ 0 := by omega
  have hb : (sbrk s 0).1 = s.brk := by simp [sbrk]
  have h2 := hwf.brk_le
  have h3 := hwf.limit_lt
  have hlow := hwf.lower h hmem
  have hsmall := hwf.small h hmem
  have hne : l ≠ [] := List.ne_nil_of_mem hmem
  obtain ⟨pre, t, hl⟩ : ∃ pre t, l = pre ++ [t] :=
    ⟨l.dropLast, l.getLast hne, (List.dropLast_append_getLast hne).symm⟩
  have htail : s.tail = t := by
    rw [hwf.tail_last, hl]
    simp
  have htiled := hwf.tiled
  rw [hl] at htiled
  obtain ⟨hend, _, hbefore⟩ := Tiled.split_last s.hdr s.brk t pre htiled
  have hnotin : t ∉ pre := by
    intro hin
    have := hbefore t hin
    omega
  by_cases hht : h = t
  · subst hht
    have hcond : uadd p (s.hdr h).size = s.brk := by
      unfold uadd; omega
    have hbrk : s.brk - (sizeof_header_t + (s.hdr h).size) = h := by omega
    have hpos : 0 < sizeof_header_t + (s.hdr h).size := by omega
    have hbase : s.base + (sizeof_header_t + (s.hdr h).size) ≤ s.brk := by omega
    have hlimit : s.brk ≤ s.limit + (sizeof_header_t + (s.hdr h).size) := by omega
    by_cases hht2 : s.head = s.tail
    · right; left
      have hpre : pre = [] := by
        have hc := hwf.chain
        rw [hl] at hc
        cases pre with
        | nil => rfl
        | cons x xs =>
          exfalso
          apply hnotin
          have : x = h := by rw [← hc.1, hht2, htail]
          rw [this]
          simp
      subst hpre
      refine ⟨htail.symm, by simpa using hl, hend, ?_⟩
      have hsb := sbrk_shrink_eq { s with head := 0, tail := 0 }
        (sizeof_header_t + (s.hdr h).size) hpos hbase hlimit
      have harg := free_sbrk_arg (s.hdr h).size hsmall
      simp only [free, hp0, hh, hb, hcond, hht2, if_false, if_true, harg, hsb]
      show some ({ s with
        head := 0
        tail := 0
        brk := s.brk - (sizeof_header_t + (s.hdr h).size) } : State) = _
      rw [hbrk]
    · right; right
      have hchain := hwf.chain
      rw [hl] at hchain hf
      rcases List.eq_nil_or_concat pre with hpre | ⟨pre1, q, hpre⟩
      · subst hpre
        exact absurd (hchain.1.trans htail.symm) hht2
      · rw [List.concat_eq_append] at hpre
        subst hpre
        have hchain1 : ChainFrom s.hdr s.head (pre1 ++ [q, h]) := by
          simpa using hchain
        have hlen : (pre1 ++ [q, h]).length ≤ fuel := by
          simp only [List.length_append, List.length_cons, List.length_nil] at hf ⊢
          omega
        have hloop := free_loop_unlink q h pre1 s s.head fuel hchain1 htail hnotin hlen
        refine ⟨htail.symm, hend, pre1, q, by simpa using hl, ?_⟩
        have hsz : (setNext s.hdr q 0 h).size = (s.hdr h).size := setNext_size _ _ _ _
        have hsb := sbrk_shrink_eq { s with hdr := setNext s.hdr q 0, tail := q }
          (sizeof_header_t + (s.hdr h).size) hpos hbase hlimit
        have harg := free_sbrk_arg (s.hdr h).size hsmall
        simp only [free, hp0, hh, hb, hcond, hht2, if_false, if_true, hloop, hsz, harg, hsb]
        show some ({ s with
          hdr := setNext s.hdr q 0
          tail := q
          brk := s.brk - (sizeof_header_t + (s.hdr h).size) } : State) = _
        rw [hbrk]
  · left
    have hin : h ∈ pre := by
      rw [hl] at hmem
      rcases List.mem_append.mp hmem with hm | hm
      · exact hm
      · exact absurd (by simpa using hm) hht
    have hle := hbefore h hin
    have hcond : uadd p (s.hdr h).size ≠ s.brk := by
      unfold uadd; omega
    refine ⟨fun e => hht (e.trans htail), hcond, ?_⟩
    simp only [free, hp0, hh, hb, hcond, if_false]

/-- Well-formedness does not depend on the payload bytes. -/
theorem wf_mem (s : State) (l : List Nat) (m : Nat → Nat) (hwf : WF s l) :
    WF { s with mem := m } l :=
  { chain := hwf.chain
    tail_last := hwf.tail_last
    tiled := hwf.tiled
    lower := hwf.lower
    small := hwf.small
    base_pos := hwf.base_pos
    base_le := hwf.base_le
    brk_le := hwf.brk_le
    limit_lt := hwf.limit_lt }

/-- A call of `free` on a live block takes a well-formed state to a well-formed state: the
chain is the old one (the block was marked free) or the old one without its last header (the
block was the tail and the break moved down to its header). -/
theorem free_wf (s s1 : State) (l : List Nat) (fuel p : Nat) (hwf : WF s l)
    (hf : l.length < fuel) (hlive : Live s l p) (hfree : free fuel s p = some s1) :
    (WF s1 l ∧ s1.brk = s.brk ∧ usub p sizeof_header_t ≠ s.tail) ∨
      (WF s1 l.dropLast ∧ s1.brk = usub p sizeof_header_t ∧ usub p sizeof_header_t = s.tail ∧
        l.getLast? = some (usub p sizeof_header_t)) := by
  have hH := sizeof_header_t_eq
  obtain ⟨h, hmem, _, hh, hcases⟩ := free_outcome s l fuel p hwf hf hlive
  rw [hh]
  have hlow := hwf.lower h hmem
  have h2 := hwf.brk_le
  rcases hcases with ⟨hnt, _, e⟩ | ⟨ht, hl, hend, e⟩ | ⟨ht, hend, pre, q, hl, e⟩
  · rw [e] at hfree
    injection hfree with hfree
    subst hfree
    exact Or.inl ⟨wf_setFree s l h 1 hwf, rfl, hnt⟩
  · rw [e] at hfree
    injection hfree with hfree
    subst hfree
    subst hl
    refine Or.inr ⟨?_, rfl, ht, rfl⟩
    exact
      { chain := rfl
        tail_last := rfl
        tiled := trivial
        lower := fun x hx => by simp at hx
        small := fun x hx => by simp at hx
        base_pos := hwf.base_pos
        base_le := hlow
        brk_le := by show h ≤ s.limit; omega
        limit_lt := hwf.limit_lt }
  · rw [e] at hfree
    injection hfree with hfree
    subst hfree
    subst hl
    have hl2 : pre ++ [q, h] = (pre ++ [q]) ++ [h] := by simp
    have htiled := hwf.tiled
    rw [hl2] at htiled
    obtain ⟨_, htq, _⟩ := Tiled.split_last s.hdr s.brk h (pre ++ [q]) htiled
    obtain ⟨_, _, hbq⟩ := Tiled.split_last s.hdr h q pre htq
    have hpq : ∀ x ∈ pre, x ≠ q := fun x hx => by have := hbq x hx; omega
    have hdrop : (pre ++ [q, h]).dropLast = pre ++ [q] := by
      rw [hl2, List.dropLast_concat]
    rw [hdrop]
    refine Or.inr ⟨?_, rfl, ht, by simp⟩
    exact
      { chain := ChainFrom.dropTail s.hdr (setNext s.hdr q 0) q h (setNext_next_same _ _ _) pre
          s.head (fun x hx => setNext_next_other _ _ _ _ (hpq x hx)) hwf.chain
        tail_last := by simp
        tiled := tiled_congr s.hdr _ h (pre ++ [q]) (fun x _ => setNext_size _ _ _ _) htq
        lower := fun x hx => hwf.lower x (by
          rcases List.mem_append.mp hx with h1 | h1
          · exact List.mem_append_left _ h1
          · exact List.mem_append_right _ (by simp at h1; simp [h1]))
        small := fun x hx => by
          show sizeof_header_t + (setNext s.hdr q 0 x).size < 2 ^ 63
          rw [setNext_size]
          exact hwf.small x (by
            rcases List.mem_append.mp hx with h1 | h1
            · exact List.mem_append_left _ h1
            · exact List.mem_append_right _ (by simp at h1; simp [h1]))
        base_pos := hwf.base_pos
        base_le := hlow
        brk_le := by show h ≤ s.limit; omega
        limit_lt := hwf.limit_lt }

theorem memset_eq (s s1 : State) (d c n : Nat) (h : memset s d c n = some s1) :
    ∃ m, s1 = { s with mem := m } := by
  unfold memset at h
  split at h
  · injection h with h
    exact ⟨_, h.symm⟩
  · exact absurd h (by simp)

theorem memcpy_eq (s s1 : State) (d src n : Nat) (h : memcpy s d src n = some s1) :
    ∃ m, s1 = { s with mem := m } := by
  unfold memcpy at h
  split at h
  · injection h with h
    exact ⟨_, h.symm⟩
  · exact absurd h (by simp)

theorem Live.transfer (s s1 : State) (l l1 : List Nat) (p : Nat) (hl : Live s l p)
    (hsub : ∀ x ∈ l, x ∈ l1)
    (hfree : ∀ x ∈ l, (s.hdr x).is_free = 0 → (s1.hdr x).is_free = 0) : Live s1 l1 p := by
  obtain ⟨h, hmem, hp, hp64, hused⟩ := hl
  exact ⟨h, hsub h hmem, hp, hp64, hfree h hmem hused⟩

/-- A call of `calloc` that is rejected by its guards, or whose total size
`sizeof(header_t) + num * nsize` is below `2^63`, takes a well-formed state to a well-formed
state. -/
theorem calloc_wf (s s1 : State) (l : List Nat) (fuel num nsize p : Nat) (hwf : WF s l)
    (hf : l.length < fuel)
    (hreq : num = 0 ∨ nsize = 0 ∨ 2 ^ 64 ≤ num * nsize ∨
      sizeof_header_t + num * nsize < 2 ^ 63)
    (hc : calloc fuel s num nsize = some (p, s1)) :
    WF s1 l ∨ WF s1 (l ++ [s.brk]) := by
  have hH := sizeof_header_t_eq
  by_cases hrej : num = 0 ∨ nsize = 0 ∨ 2 ^ 64 ≤ num * nsize
  · rw [calloc_reject fuel s num nsize hrej] at hc
    injection hc with hc
    injection hc with _ e
    subst e
    exact Or.inl hwf
  · have hn : num ≠ 0 := fun e => hrej (Or.inl e)
    have hk : nsize ≠ 0 := fun e => hrej (Or.inr (Or.inl e))
    have hlt : num * nsize < 2 ^ 64 := by
      by_contra hge
      exact hrej (Or.inr (Or.inr (by omega)))
    have h63 : sizeof_header_t + num * nsize < 2 ^ 63 := by
      rcases hreq with e | e | e | e
      · exact absurd e hn
      · exact absurd e hk
      · omega
      · exact e
    rw [calloc_exact fuel s num nsize hn hk hlt] at hc
    cases hm : malloc fuel s (num * nsize) with
    | none => rw [hm] at hc; simp at hc
    | some x =>
      obtain ⟨b, s0⟩ := x
      rw [hm] at hc
      simp only at hc
      have hwf0 := malloc_wf s s0 l fuel (num * nsize) b hwf hf h63 hm
      by_cases hb : b = 0
      · rw [if_pos hb] at hc
        injection hc with hc
        injection hc with _ e
        subst e
        rcases hwf0 with ⟨h1, _⟩ | ⟨h1, _⟩
        · exact Or.inl h1
        · exact Or.inr h1
      · rw [if_neg hb] at hc
        cases hs : memset s0 b 0 (num * nsize) with
        | none => rw [hs] at hc; simp at hc
        | some s2 =>
          rw [hs] at hc
          injection hc with hc
          injection hc with _ e
          subst e
          obtain ⟨m, em⟩ := memset_eq s0 s2 b 0 (num * nsize) hs
          subst em
          rcases hwf0 with ⟨h1, _⟩ | ⟨h1, _⟩
          · exact Or.inl (wf_mem s0 l m h1)
          · exact Or.inr (wf_mem s0 _ m h1)

/-- A call of `realloc` on `NULL` or on a live block, whose total size
`sizeof(header_t) + size` is below `2^63`, takes a well-formed state to a well-formed
state. -/
theorem realloc_wf (s s1 : State) (l : List Nat) (fuel block size p : Nat) (hwf : WF s l)
    (hf : l.length + 1 < fuel) (hb : block = 0 ∨ Live s l block)
    (h63 : sizeof_header_t + size < 2 ^ 63)
    (hr : realloc fuel s block size = some (p, s1)) : ∃ l1, WF s1 l1 := by
  have hH := sizeof_header_t_eq
  have hf0 : l.length < fuel := by omega
  have hmal : ∀ q t, malloc fuel s size = some (q, t) → ∃ l1, WF t l1 := by
    intro q t hm
    rcases malloc_wf s t l fuel size q hwf hf0 h63 hm with ⟨h1, _⟩ | ⟨h1, _⟩
    · exact ⟨_, h1⟩
    · exact ⟨_, h1⟩
  by_cases h0 : block = 0 ∨ size = 0
  · have e : realloc fuel s block size = malloc fuel s size := by
      unfold realloc; rw [if_pos h0]
    rw [e] at hr
    exact hmal p s1 hr
  · have hlive : Live s l block := by
      rcases hb with e | e
      · exact absurd (Or.inl e) h0
      · exact e
    unfold realloc at hr
    rw [if_neg h0] at hr
    simp only at hr
    by_cases hge : (s.hdr (usub block sizeof_header_t)).size ≥ size
    · rw [if_pos hge] at hr
      injection hr with hr
      injection hr with _ e
      subst e
      exact ⟨l, hwf⟩
    · rw [if_neg hge] at hr
      cases hm : malloc fuel s size with
      | none => rw [hm] at hr; simp at hr
      | some x =>
        obtain ⟨ret, s0⟩ := x
        rw [hm] at hr
        simp only at hr
        by_cases hret : ret ≠ 0
        · rw [if_pos hret] at hr
          cases hcp : memcpy s0 ret block (s0.hdr (usub block sizeof_header_t)).size with
          | none => rw [hcp] at hr; simp at hr
          | some s2 =>
            rw [hcp] at hr
            simp only at hr
            cases hfr : free fuel s2 block with
            | none => rw [hfr] at hr; simp at hr
            | some s3 =>
              rw [hfr] at hr
              injection hr with hr
              injection hr with _ e
              subst e
              obtain ⟨m, em⟩ := memcpy_eq s0 s2 ret block _ hcp
              subst em
              have key : ∃ l0, WF s0 l0 ∧ l0.length < fuel ∧ Live s0 l0 block := by
                rcases malloc_outcome s s0 l fuel size ret hwf hf0 h63 hm with
                  ⟨e1, _⟩ | ⟨h1, _, _, _, e⟩ | ⟨_, _, hlim, _, e⟩
                · exact absurd e1 hret
                · subst e
                  refine ⟨l, wf_setFree s l h1 0 hwf, hf0, ?_⟩
                  refine Live.transfer s _ l l block hlive (fun x hx => hx) ?_
                  intro x _ hx
                  show (setFree s.hdr h1 0 x).is_free = 0
                  unfold setFree
                  split
                  · rfl
                  · exact hx
                · subst e
                  refine ⟨l ++ [s.brk], wf_append s l size hwf h63 hlim, by simp; omega, ?_⟩
                  refine Live.transfer s _ l (l ++ [s.brk]) block hlive
                    (fun x hx => List.mem_append_left _ hx) ?_
                  intro x hxl hx
                  have hxb : x ≠ s.brk := by
                    have := Tiled.block_le s.hdr s.brk l hwf.tiled x hxl
                    omega
                  dsimp only
                  split
                  · rw [setNext_is_free, setNext_is_free, setFree_is_free_other _ _ _ _ hxb,
                      setSize_is_free]
                    exact hx
                  · rw [setNext_is_free, setFree_is_free_other _ _ _ _ hxb, setSize_is_free]
                    exact hx
              obtain ⟨l0, hwf0, hlen0, hlive0⟩ := key
              have hwf2 := wf_mem s0 l0 m hwf0
              have hlive2 : Live { s0 with mem := m } l0 block :=
                Live.transfer s0 _ l0 l0 block hlive0 (fun x hx => hx) (fun x _ hx => hx)
              rcases free_wf _ s3 l0 fuel block hwf2 hlen0 hlive2 hfr with ⟨h1, _⟩ | ⟨h1, _⟩
              · exact ⟨_, h1⟩
              · exact ⟨_, h1⟩
        · rw [if_neg hret] at hr
          injection hr with hr
          injection hr with e1 e2
          subst e1 e2
          exact hmal ret s0 hm

/-! ## More fuel does not change a result -/

theorem get_free_block_loop_mono (s : State) (size : Nat) :
    ∀ (f a r : Nat), get_free_block_loop s size f a = some r →
      ∀ g, f ≤ g → get_free_block_loop s size g a = some r := by
  intro f
  induction f with
  | zero => intro a r h; simp [get_free_block_loop] at h
  | succ f ih =>
    intro a r h g hle
    match g, hle with
    | g + 1, hle =>
      rw [get_free_block_loop] at h ⊢
      by_cases h0 : a = 0
      · rw [if_pos h0] at h ⊢; exact h
      · rw [if_neg h0] at h ⊢
        by_cases h1 : (s.hdr a).is_free ≠ 0 ∧ (s.hdr a).size ≥ size
        · rw [if_pos h1] at h ⊢; exact h
        · rw [if_neg h1] at h ⊢
          exact ih _ r h g (by omega)

theorem free_loop_mono :
    ∀ (f : Nat) (s : State) (tmp : Nat) (r : State), free_loop f s tmp = some r →
      ∀ g, f ≤ g → free_loop g s tmp = some r := by
  intro f
  induction f with
  | zero => intro s tmp r h; simp [free_loop] at h
  | succ f ih =>
    intro s tmp r h g hle
    match g, hle with
    | g + 1, hle =>
      rw [free_loop] at h ⊢
      by_cases h0 : tmp = 0
      · rw [if_pos h0] at h ⊢; exact h
      · rw [if_neg h0] at h ⊢
        exact ih _ _ r h g (by omega)

theorem malloc_mono (f g : Nat) (s : State) (size : Nat) (x : Nat × State)
    (h : malloc f s size = some x) (hle : f ≤ g) : malloc g s size = some x := by
  unfold malloc at h ⊢
  by_cases hs : size = 0
  · rw [if_pos hs] at h ⊢; exact h
  · rw [if_neg hs] at h ⊢
    cases hg : get_free_block f s size with
    | none => rw [hg] at h; simp at h
    | some r =>
      have hg2 : get_free_block g s size = some r :=
        get_free_block_loop_mono s size f s.head r hg g hle
      rw [hg] at h
      rw [hg2]
      exact h

theorem free_mono (f g : Nat) (s : State) (block : Nat) (x : State)
    (h : free f s block = some x) (hle : f ≤ g) : free g s block = some x := by
  unfold free at h ⊢
  by_cases hb : block = 0
  · rw [if_pos hb] at h ⊢; exact h
  · rw [if_neg hb] at h ⊢
    simp only at h ⊢
    by_cases hc : uadd block (s.hdr (usub block sizeof_header_t)).size = (sbrk s 0).1
    · rw [if_pos hc] at h ⊢
      by_cases hht : s.head = s.tail
      · rw [if_pos hht] at h ⊢; exact h
      · rw [if_neg hht] at h ⊢
        cases hl : free_loop f s s.head with
        | none => rw [hl] at h; simp at h
        | some s1 =>
          rw [hl] at h
          rw [free_loop_mono f s s.head s1 hl g hle]
          exact h
    · rw [if_neg hc] at h ⊢; exact h

theorem calloc_mono (f g : Nat) (s : State) (num nsize : Nat) (x : Nat × State)
    (h : calloc f s num nsize = some x) (hle : f ≤ g) : calloc g s num nsize = some x := by
  unfold calloc at h ⊢
  by_cases h0 : num = 0 ∨ nsize = 0
  · rw [if_pos h0] at h ⊢; exact h
  · rw [if_neg h0] at h ⊢
    simp only at h ⊢
    by_cases h1 : nsize ≠ (num * nsize) % 2 ^ 64 / num
    · rw [if_pos h1] at h ⊢; exact h
    · rw [if_neg h1] at h ⊢
      cases hm : malloc f s ((num * nsize) % 2 ^ 64) with
      | none => rw [hm] at h; simp at h
      | some y =>
        rw [hm] at h
        rw [malloc_mono f g s _ y hm hle]
        exact h

theorem realloc_mono (f g : Nat) (s : State) (block size : Nat) (x : Nat × State)
    (h : realloc f s block size = some x) (hle : f ≤ g) : realloc g s block size = some x := by
  unfold realloc at h ⊢
  by_cases h0 : block = 0 ∨ size = 0
  · rw [if_pos h0] at h ⊢
    exact malloc_mono f g s size x h hle
  · rw [if_neg h0] at h ⊢
    simp only at h ⊢
    by_cases hge : (s.hdr (usub block sizeof_header_t)).size ≥ size
    · rw [if_pos hge] at h ⊢; exact h
    · rw [if_neg hge] at h ⊢
      cases hm : malloc f s size with
      | none => rw [hm] at h; simp at h
      | some y =>
        obtain ⟨ret, s0⟩ := y
        rw [hm] at h
        rw [malloc_mono f g s size (ret, s0) hm hle]
        simp only at h ⊢
        by_cases hret : ret ≠ 0
        · rw [if_pos hret] at h ⊢
          cases hcp : memcpy s0 ret block (s0.hdr (usub block sizeof_header_t)).size with
          | none => rw [hcp] at h; simp at h
          | some s2 =>
            rw [hcp] at h
            simp only at h ⊢
            cases hfr : free f s2 block with
            | none => rw [hfr] at h; simp at h
            | some s3 =>
              rw [hfr] at h
              rw [free_mono f g s2 block s3 hfr hle]
              exact h
        · rw [if_neg hret] at h ⊢; exact h

/-! ## States reached without a wrapping request are well-formed -/

theorem ChainFrom.unique (hdr : Nat → Header) :
    ∀ (l l1 : List Nat) (a : Nat), ChainFrom hdr a l → ChainFrom hdr a l1 → l = l1 := by
  intro l
  induction l with
  | nil =>
    intro l1 a h h1
    cases l1 with
    | nil => rfl
    | cons y ys =>
      have ha : a = 0 := h
      exact absurd (h1.1.symm.trans ha) h1.2.1
  | cons x xs ih =>
    intro l1 a h h1
    cases l1 with
    | nil =>
      have ha : a = 0 := h1
      exact absurd (h.1.symm.trans ha) h.2.1
    | cons y ys =>
      have hxy : x = y := h.1.symm.trans h1.1
      subst hxy
      rw [ih ys _ h.2.2 h1.2.2]

theorem wf_init (base limit : Nat) (h0 : 0 < base) (h1 : base ≤ limit)
    (h2 : limit + sizeof_header_t < 2 ^ 64) : WF (initState base limit) [] :=
  { chain := rfl
    tail_last := rfl
    tiled := trivial
    lower := fun x hx => by simp at hx
    small := fun x hx => by simp at hx
    base_pos := h0
    base_le := Nat.le_refl _
    brk_le := h1
    limit_lt := h2 }

theorem live_of_livePtr (s : State) (l : List Nat) (p : Nat) (hwf : WF s l)
    (h : LivePtr s p) : Live s l p := by
  obtain ⟨l1, hc, hl⟩ := h
  rw [ChainFrom.unique s.hdr l l1 s.head hwf.chain hc]
  exact hl

/-- Every state reached without a wrapping request is well-formed. -/
theorem reachableNoWrap_wf (s : State) (h : ReachableNoWrap s) : ∃ l, WF s l := by
  induction h with
  | init base limit h0 h1 h2 => exact ⟨[], wf_init base limit h0 h1 h2⟩
  | store m _ ih =>
    obtain ⟨l, hwf⟩ := ih
    exact ⟨l, wf_mem _ l m hwf⟩
  | malloc fuel size p _ h63 hm ih =>
    obtain ⟨l, hwf⟩ := ih
    have hm2 := malloc_mono fuel (max fuel (l.length + 1)) _ size _ hm (Nat.le_max_left _ _)
    have hf : l.length < max fuel (l.length + 1) := by
      have := Nat.le_max_right fuel (l.length + 1); omega
    rcases malloc_wf _ _ l _ size p hwf hf h63 hm2 with ⟨h1, _⟩ | ⟨h1, _⟩
    · exact ⟨_, h1⟩
    · exact ⟨_, h1⟩
  | calloc fuel num nsize p _ _ _ hreq hc ih =>
    obtain ⟨l, hwf⟩ := ih
    have hc2 := calloc_mono fuel (max fuel (l.length + 1)) _ num nsize _ hc
      (Nat.le_max_left _ _)
    have hf : l.length < max fuel (l.length + 1) := by
      have := Nat.le_max_right fuel (l.length + 1); omega
    rcases calloc_wf _ _ l _ num nsize p hwf hf hreq hc2 with h1 | h1
    · exact ⟨_, h1⟩
    · exact ⟨_, h1⟩
  | @realloc s0 s2 fuel block size p _ hb h63 hr ih =>
    obtain ⟨l, hwf⟩ := ih
    have hr2 := realloc_mono fuel (max fuel (l.length + 2)) _ block size _ hr
      (Nat.le_max_left _ _)
    have hf : l.length + 1 < max fuel (l.length + 2) := by
      have := Nat.le_max_right fuel (l.length + 2); omega
    have hb2 : block = 0 ∨ Live s0 l block := by
      rcases hb with e | e
      · exact Or.inl e
      · exact Or.inr (live_of_livePtr _ l block hwf e)
    exact realloc_wf _ _ l _ block size p hwf hf hb2 h63 hr2
  | free fuel block _ hb hfr ih =>
    obtain ⟨l, hwf⟩ := ih
    rcases hb with e | e
    · subst e
      have e0 : free fuel _ 0 = some _ := hfr
      simp only [free, if_true] at e0
      injection e0 with e0
      subst e0
      exact ⟨l, hwf⟩
    · have hfr2 := free_mono fuel (max fuel (l.length + 1)) _ block _ hfr (Nat.le_max_left _ _)
      have hf : l.length < max fuel (l.length + 1) := by
        have := Nat.le_max_right fuel (l.length + 1); omega
      rcases free_wf _ _ l _ block hwf hf (live_of_livePtr _ l block hwf e) hfr2 with
        ⟨h1, _⟩ | ⟨h1, _⟩
      · exact ⟨_, h1⟩
      · exact ⟨_, h1⟩

/-- The states reached without a wrapping request are among the reachable states. -/
theorem reachableNoWrap_reachable (s : State) (h : ReachableNoWrap s) : Reachable s := by
  have hH := sizeof_header_t_eq
  induction h with
  | init base limit h0 h1 h2 => exact Reachable.init base limit h0 h1 h2
  | store m _ ih => exact Reachable.store m ih
  | malloc fuel size p _ h63 hm ih => exact Reachable.malloc fuel size p ih (by omega) hm
  | calloc fuel num nsize p _ hn hk _ hc ih => exact Reachable.calloc fuel num nsize p ih hn hk hc
  | realloc fuel block size p _ hb h63 hr ih =>
    exact Reachable.realloc fuel block size p ih hb (by omega) hr
  | free fuel block _ hb hfr ih => exact Reachable.free fuel block ih hb hfr

/-- In every state reached without a wrapping request the chain from `head` ends in `NULL`,
its headers have strictly increasing addresses, the block of the tail ends at the break, and
`head` is `NULL` exactly when `tail` is. -/
theorem noWrap_chain_invariants (s : State) (h : ReachableNoWrap s) :
    ∃ l, ChainFrom s.hdr s.head l ∧ l.Pairwise (fun a b => a < b) ∧
      (l ≠ [] → s.tail + sizeof_header_t + (s.hdr s.tail).size = s.brk) ∧
      (s.head = 0 ↔ s.tail = 0) := by
  obtain ⟨l, hwf⟩ := reachableNoWrap_wf s h
  exact ⟨l, hwf.chain, WF.increasing s l hwf, (WF.tail_at_break s l hwf).1,
    (WF.tail_at_break s l hwf).2⟩

end MemAlloc
